import Mathlib

/-!
Shallow embedding of the Huffman compressor in `src/Main.py`.

Modelling conventions:
* text and symbols are natural-number character codes (`ord`);
* bit strings are `List Bool` (`false` = the digit 0, `true` = the digit 1);
* byte strings are `List Nat`;
* Python `None` is the `PyTree.nil` constructor, a `Node` object is `PyTree.node`;
* a Python dict is modelled by a `Nat → Option (List Bool)` valuation built from
  in-order updates;
* an uncaught Python exception is an `Option.none` result;
* Python 3.7+ semantics are assumed (PEP 479: a `StopIteration` escaping a
  generator expression becomes a `RuntimeError`, so it is not caught by the
  surrounding `except StopIteration`).
-/

set_option linter.unusedVariables false

namespace HuffmanPy

/-- Value of a bit string read as a base-2 numeral, as Python `int(s, 2)`. -/
def bitsToNat (l : List Bool) : Nat :=
  l.foldl (fun a b => 2 * a + (if b then 1 else 0)) 0

/-- Binary digits of `n` accumulated from the least-significant end. -/
def natBinAux (n : Nat) (acc : List Bool) : List Bool :=
  if n = 0 then acc else natBinAux (n / 2) (decide (n % 2 = 1) :: acc)
termination_by n
decreasing_by
  exact Nat.div_lt_self (by omega) (by omega)

/-- Python `format(n, 'b')`: binary digits, most significant first, `"0"` for 0. -/
def natToBin (n : Nat) : List Bool :=
  if n = 0 then [false] else natBinAux n []

/-- Python `format(n, '08b')`: binary form left-padded with zeros to width 8
(longer than 8 digits when `n ≥ 256`, exactly as in Python). -/
def format08b (n : Nat) : List Bool :=
  List.replicate (8 - (natToBin n).length) false ++ natToBin n

/-- The byte-grouping loop of `bit_string_to_bytes` (`src/Main.py:127-129`):
successive 8-character slices, each parsed with `int(byte, 2)`. -/
def toBytes : List Bool → List Nat
  | [] => []
  | b :: bs => bitsToNat ((b :: bs).take 8) :: toBytes ((b :: bs).drop 8)
termination_by l => l.length
decreasing_by simp [List.length_drop]; omega

/-- Python `bit_string_to_bytes` (`src/Main.py:122-130`): right-pad with zero bits to a
multiple of 8, group into bytes, and prepend the padding count as a byte. -/
def bit_string_to_bytes (s : List Bool) : List Nat :=
  let padding := (8 - s.length % 8) % 8
  padding :: toBytes (s ++ List.replicate padding false)

/-- Python `bytes_to_bit_string` (`src/Main.py:132-138`): first byte is the padding
count, the rest are rendered as 8-bit groups, and the trailing padding is
stripped.  Indexing `b[0]` on an empty byte string raises `IndexError`,
modelled as `none`. -/
def bytes_to_bit_string (b : List Nat) : Option (List Bool) :=
  match b with
  | [] => none
  | padding :: rest =>
    let bits := (rest.map format08b).flatten
    some (if padding > 0 then bits.take (bits.length - padding) else bits)

/-- Python `Node` objects together with `None`: `nil` models `None`, and `node`
carries the `freq`, `char`, `left`, `right` attributes (`src/Main.py:6-14`). -/
inductive PyTree : Type where
  | nil : PyTree
  | node (freq : Nat) (char : Option Nat) (left right : PyTree) : PyTree
deriving DecidableEq, Repr, Inhabited

namespace PyTree

/-- The `freq` attribute (0 is a dummy for `nil`, which is never read). -/
def freq : PyTree → Nat
  | .nil => 0
  | .node f _ _ _ => f

/-- The `char` attribute. -/
def char : PyTree → Option Nat
  | .nil => none
  | .node _ c _ _ => c

/-- The `left` attribute. -/
def left : PyTree → PyTree
  | .nil => .nil
  | .node _ _ l _ => l

/-- The `right` attribute. -/
def right : PyTree → PyTree
  | .nil => .nil
  | .node _ _ _ r => r

/-- Number of `Node` objects in a tree (used only as a termination measure). -/
def size : PyTree → Nat
  | .nil => 1
  | .node _ _ l r => 1 + l.size + r.size

/-- Strict shape invariant: a `node` with a symbol is a leaf with no children,
a `node` without a symbol has two non-`nil` children; `nil` is not strict. -/
def Strict : PyTree → Bool
  | .nil => false
  | .node _ (some _) l r => decide (l = .nil) && decide (r = .nil)
  | .node _ none l r => Strict l && Strict r

/-- Multiset of the symbols stored in a tree's `char`-bearing nodes. -/
def charsM : PyTree → Multiset Nat
  | .nil => 0
  | .node _ c l r => (c.toList : Multiset Nat) + charsM l + charsM r

end PyTree

/-- Python `heapq._siftdown(heap, startpos, pos)` with `newitem = heap[pos]`
passed explicitly; `Node.__lt__` compares `freq` (`src/Main.py:13-14`). -/
def siftdown (heap : List PyTree) (startpos pos : Nat) (newitem : PyTree) :
    List PyTree :=
  if startpos < pos then
    if newitem.freq < (heap.getD ((pos - 1) / 2) .nil).freq then
      siftdown (heap.set pos (heap.getD ((pos - 1) / 2) .nil)) startpos
        ((pos - 1) / 2) newitem
    else heap.set pos newitem
  else heap.set pos newitem
termination_by pos
decreasing_by
  have := Nat.div_le_self (pos - 1) 2
  omega

/-- The index of the child that `heapq._siftup` moves up: the right child when
it exists and `heap[childpos] < heap[rightpos]` fails, else the left child. -/
def childIdx (heap : List PyTree) (pos endpos : Nat) : Nat :=
  if 2 * pos + 2 < endpos ∧
      ¬ (heap.getD (2 * pos + 1) .nil).freq < (heap.getD (2 * pos + 2) .nil).freq
  then 2 * pos + 2 else 2 * pos + 1

theorem childIdx_gt (heap : List PyTree) (pos endpos : Nat) :
    pos < childIdx heap pos endpos := by
  unfold childIdx; split <;> omega

theorem childIdx_lt (heap : List PyTree) (pos endpos : Nat)
    (h : 2 * pos + 1 < endpos) : childIdx heap pos endpos < endpos := by
  unfold childIdx; split <;> omega

/-- The sift-to-leaf loop of Python `heapq._siftup`: move the smaller child up
into `pos` until a leaf position is reached, then place `newitem` and sift it
back down. -/
def siftupLoop (heap : List PyTree) (startpos pos : Nat) (newitem : PyTree)
    (endpos : Nat) : List PyTree :=
  if h : 2 * pos + 1 < endpos then
    siftupLoop (heap.set pos (heap.getD (childIdx heap pos endpos) .nil)) startpos
      (childIdx heap pos endpos) newitem endpos
  else siftdown (heap.set pos newitem) startpos pos newitem
termination_by endpos - pos
decreasing_by
  have h1 := childIdx_gt heap pos endpos
  have h2 := childIdx_lt heap pos endpos h
  omega

/-- Python `heapq._siftup(heap, pos)`. -/
def siftup (heap : List PyTree) (pos : Nat) : List PyTree :=
  siftupLoop heap pos pos (heap.getD pos .nil) heap.length

/-- Python `heapq.heappush`. -/
def heappush (heap : List PyTree) (item : PyTree) : List PyTree :=
  siftdown (heap ++ [item]) 0 heap.length item

/-- Python `heapq.heappop`: pop the last element; if the heap is still
non-empty, return the old root `heap[0]` and sift the last element down from
the root position. -/
def heappop (heap : List PyTree) : PyTree × List PyTree :=
  match heap.dropLast with
  | [] => (heap.getLast?.getD .nil, [])
  | r :: rs => (r, siftup ((r :: rs).set 0 (heap.getLast?.getD .nil)) 0)

theorem length_siftdown (p : Nat) : ∀ (heap : List PyTree) (s : Nat) (x : PyTree),
    (siftdown heap s p x).length = heap.length := by
  induction p using Nat.strong_induction_on with
  | _ p ih =>
    intro heap s x
    rw [siftdown]
    split
    · split
      · rename_i hs hf
        have hlt : (p - 1) / 2 < p := by
          have := Nat.div_le_self (p - 1) 2; omega
        rw [ih _ hlt, List.length_set]
      · exact List.length_set ..
    · exact List.length_set ..

theorem length_siftupLoop (k : Nat) :
    ∀ (heap : List PyTree) (s p : Nat) (x : PyTree) (e : Nat), e - p = k →
    (siftupLoop heap s p x e).length = heap.length := by
  induction k using Nat.strong_induction_on with
  | _ k ih =>
    intro heap s p x e hk
    rw [siftupLoop]
    split
    · rename_i h
      have h1 := childIdx_gt heap p e
      have h2 := childIdx_lt heap p e h
      rw [ih (e - childIdx heap p e) (by omega) _ _ _ _ _ rfl, List.length_set]
    · rw [length_siftdown, List.length_set]

theorem length_siftup (heap : List PyTree) (p : Nat) :
    (siftup heap p).length = heap.length := by
  rw [siftup, length_siftupLoop (heap.length - p) _ _ _ _ _ rfl]

theorem length_heappush (heap : List PyTree) (x : PyTree) :
    (heappush heap x).length = heap.length + 1 := by
  rw [heappush, length_siftdown]
  simp

theorem length_heappop_snd (heap : List PyTree) :
    (heappop heap).2.length = heap.length - 1 := by
  unfold heappop
  split
  · rename_i hrest
    have := congrArg List.length hrest
    simp [List.length_dropLast] at this ⊢
    omega
  · rename_i r rs hrest
    have := congrArg List.length hrest
    simp only [List.length_dropLast, List.length_cons] at this
    simp [length_siftup, List.length_set]
    omega

/-- One `frequency[char] += 1` on a `defaultdict(int)`, modelled on an
insertion-ordered association list. -/
def bump (d : List (Nat × Nat)) (c : Nat) : List (Nat × Nat) :=
  if (d.lookup c).isSome then
    d.map (fun kv => if kv.1 = c then (kv.1, kv.2 + 1) else kv)
  else d ++ [(c, 1)]

/-- Python `build_frequency_table` (`src/Main.py:16-20`); `.items()` iterates the
resulting list in insertion order, as Python 3.7+ dicts do. -/
def build_frequency_table (text : List Nat) : List (Nat × Nat) :=
  text.foldl bump []

/-- The merge loop of `build_huffman_tree` (`src/Main.py:28-32`). -/
def buildLoop (heap : List PyTree) : List PyTree :=
  if h : heap.length > 1 then
    let p1 := heappop heap
    let p2 := heappop p1.2
    buildLoop (heappush p2.2 (.node (p1.1.freq + p2.1.freq) none p1.1 p2.1))
  else heap
termination_by heap.length
decreasing_by
  rw [length_heappush, length_heappop_snd, length_heappop_snd]
  omega

/-- The seeding loop of `build_huffman_tree` (`src/Main.py:23-25`): one leaf
`Node(freq, char)` pushed per `frequency.items()` entry, in insertion order. -/
def bhtHeap (frequency : List (Nat × Nat)) : List PyTree :=
  frequency.foldl (fun h cf => heappush h (.node cf.2 (some cf.1) .nil .nil)) []

/-- Python `build_huffman_tree` (`src/Main.py:22-33`): push a leaf per table entry,
return `None` for an empty table, else merge down to a single root. -/
def build_huffman_tree (frequency : List (Nat × Nat)) : PyTree :=
  if (bhtHeap frequency).isEmpty then .nil
  else (buildLoop (bhtHeap frequency)).headD .nil

/-- Dict update `codebook[c] = v` on the valuation model of a Python dict. -/
def dictSet (d : Nat → Option (List Bool)) (c : Nat) (v : List Bool) :
    Nat → Option (List Bool) :=
  fun x => if x = c then some v else d x

/-- The stack loop of `build_codes_iterative` (`src/Main.py:41-49`).  The stack
never holds a `None` entry — the caller checks the root and children are pushed
only when truthy — so the `nil` case below is unreachable from
`build_codes_iterative` and is modelled as a skip. -/
def buildCodesLoop : List (PyTree × List Bool) → (Nat → Option (List Bool)) →
    Nat → Option (List Bool)
  | [], d => d
  | (.nil, _) :: rest, d => buildCodesLoop rest d
  | (.node _ (some c) _ _, p) :: rest, d =>
    buildCodesLoop rest (dictSet d c (if p.isEmpty then [false] else p))
  | (.node _ none l r, p) :: rest, d =>
    buildCodesLoop
      ((if l = .nil then [] else [(l, p ++ [false])]) ++
        (if r = .nil then [] else [(r, p ++ [true])]) ++ rest) d
termination_by stack _ => (stack.map (fun e => e.1.size)).sum
decreasing_by
  all_goals simp [PyTree.size]
  all_goals split <;> split <;> simp [PyTree.size] <;> omega

/-- Python `build_codes_iterative` (`src/Main.py:35-50`), returning the final dict as
a lookup valuation. -/
def build_codes_iterative (root : PyTree) : Nat → Option (List Bool) :=
  if root = .nil then fun _ => none
  else buildCodesLoop [(root, [])] fun _ => none

/-- Python `encode` (`src/Main.py:52-53`): concatenate the code of every character;
a missing codebook entry raises `KeyError`, modelled as `none`. -/
def encode (text : List Nat) (codebook : Nat → Option (List Bool)) :
    Option (List Bool) :=
  match text with
  | [] => some []
  | c :: cs =>
    match codebook c with
    | none => none
    | some p => (encode cs codebook).map (fun bs => p ++ bs)

/-- The loop of `decode` (`src/Main.py:55-63`) with the current node tracked
explicitly.  Each bit steps to `node.left` on `'0'` and `node.right` otherwise;
if the reached object is `None`, the following `node.char` attribute access
raises `AttributeError` (modelled `none`); a node with a symbol emits it and
resets to the root.  Exhausting the bits returns the accumulated output. -/
def decodeAux (root : PyTree) : PyTree → List Bool → Option (List Nat)
  | _, [] => some []
  | .nil, _ :: _ => none
  | .node _ _ l r, b :: bs =>
    match (if b then r else l) with
    | .nil => none
    | .node f (some c) cl cr => (decodeAux root root bs).map (fun ds => c :: ds)
    | .node f none cl cr => decodeAux root (.node f none cl cr) bs
termination_by _ bits => bits.length
decreasing_by all_goals simp

/-- Python `decode` (`src/Main.py:55-63`). -/
def decode (encoded_bits : List Bool) (root : PyTree) : Option (List Nat) :=
  decodeAux root root encoded_bits

/-- The stack loop of `serialize_tree_iterative` (`src/Main.py:67-82`): emit
`'1'` plus `format(ord(char), '08b')` for a symbol node, `'0'` for an internal
node, pushing `right` then `left` so `left` is processed first.  Popping a
`None` would raise `AttributeError` at `node.char`, modelled as `none`
(unreachable from `serialize_tree_iterative` on the trees this program
builds, since children are pushed only when truthy). -/
def serLoop : List PyTree → Option (List Bool)
  | [] => some []
  | .nil :: _ => none
  | .node _ (some c) _ _ :: rest =>
    (serLoop rest).map (fun bs => true :: (format08b c ++ bs))
  | .node _ none l r :: rest =>
    (serLoop ((if l = .nil then [] else [l]) ++
      (if r = .nil then [] else [r]) ++ rest)).map (fun bs => false :: bs)
termination_by stack => (stack.map PyTree.size).sum
decreasing_by
  all_goals simp [PyTree.size]
  all_goals split <;> split <;> simp [PyTree.size] <;> omega

/-- Python `serialize_tree_iterative` (`src/Main.py:65-83`): the emitted bit string,
packed with `bit_string_to_bytes`. -/
def serialize_tree_iterative (root : PyTree) : Option (List Nat) :=
  (serLoop [root]).map bit_string_to_bytes

/-- One Python `Node` object of the deserializer, with children as indices
into the list of objects created so far (mutation is modelled by updating the
record at the parent's index). -/
structure NodeRec where
  freq : Nat
  char : Option Nat
  left : Option Nat
  right : Option Nat
deriving DecidableEq, Repr, Inhabited

/-- Mutable state of `deserialize_tree_iterative`: all `Node` objects created
so far, the stack of indices of incomplete internal nodes (head = top), and
the `root` variable. -/
structure DState where
  nodes : List NodeRec
  stack : List Nat
  root : Option Nat
deriving DecidableEq, Repr, Inhabited

/-- The attachment logic shared by both branches of the deserializer loop
(`src/Main.py:97-105` and `108-116`): the new node (index `s.nodes.length`)
becomes the root if the stack is empty, else fills the top parent's `left`
slot, else its `right` slot (popping the completed parent), else is left
unattached. -/
def attach (s : DState) (rec : NodeRec) : DState :=
  match s.stack with
  | [] => ⟨s.nodes ++ [rec], s.stack, some s.nodes.length⟩
  | p :: rest =>
    let pr := s.nodes.getD p default
    if pr.left.isNone then
      ⟨(s.nodes.set p { pr with left := some s.nodes.length }) ++ [rec],
        s.stack, s.root⟩
    else if pr.right.isNone then
      ⟨(s.nodes.set p { pr with right := some s.nodes.length }) ++ [rec],
        rest, s.root⟩
    else ⟨s.nodes ++ [rec], s.stack, s.root⟩

/-- The `'1'` branch: create a leaf `Node(0, chr(c))` and attach it. -/
def dstep1 (s : DState) (c : Nat) : DState :=
  attach s ⟨0, some c, none, none⟩

/-- The `'0'` branch: create `Node(0, None)`, attach it, then push it. -/
def dstep0 (s : DState) : DState :=
  let s' := attach s ⟨0, none, none, none⟩
  ⟨s'.nodes, s.nodes.length :: s'.stack, s'.root⟩

/-- The driving loop of `deserialize_tree_iterative` (`src/Main.py:91-119`):
on `'1'` read 8 further bits as the symbol (reading past the end raises
`RuntimeError` via PEP 479, modelled `none`); on `'0'` create an internal
node; `StopIteration` at the loop head ends the loop normally. -/
def drun : List Bool → DState → Option DState
  | [], s => some s
  | b :: bs, s =>
    if b then
      if 8 ≤ bs.length then drun (bs.drop 8) (dstep1 s (bitsToNat (bs.take 8)))
      else none
    else drun bs (dstep0 s)
termination_by bits _ => bits.length
decreasing_by all_goals simp [List.length_drop] <;> omega

/-- Read the Python object graph reachable from index `i` back as a `PyTree`.
All child pointers created by `attach` point to strictly later indices, so
fuel `nodes.length` reconstructs the graph exactly. -/
def readTree (nodes : List NodeRec) (fuel : Nat) (r : Option Nat) : PyTree :=
  match r with
  | none => .nil
  | some i =>
    if fuel = 0 then .nil
    else
      .node (nodes.getD i default).freq (nodes.getD i default).char
        (readTree nodes (fuel - 1) (nodes.getD i default).left)
        (readTree nodes (fuel - 1) (nodes.getD i default).right)
termination_by fuel
decreasing_by all_goals omega

/-- Python `deserialize_tree_iterative` (`src/Main.py:85-120`). -/
def deserialize_tree_iterative (b : List Nat) : Option PyTree :=
  (bytes_to_bit_string b).bind fun bits =>
    (drun bits ⟨[], [], none⟩).map fun s => readTree s.nodes s.nodes.length s.root

/-- Big-endian value of a byte list, as `struct.unpack('>I', ...)` on 4 bytes. -/
def be32 (l : List Nat) : Nat :=
  l.foldl (fun a x => 256 * a + x) 0

/-- Python `load_encoded_file` (`src/Main.py:151-163`) on the file's byte contents:
fail (`ValueError`) when fewer than 4 header bytes are available; otherwise
`f.read(tree_length)` returns *up to* `tree_length` bytes — short reads are
not detected — and the rest is the payload. -/
def load_encoded_file (data : List Nat) : Option (List Nat × List Nat) :=
  if (data.take 4).length < 4 then none
  else some ((data.drop 4).take (be32 (data.take 4)),
    (data.drop 4).drop (be32 (data.take 4)))

/-! ### Generic list helpers -/

theorem getD_set_self (l : List α) (i : Nat) (x d : α) (h : i < l.length) :
    (l.set i x).getD i d = x := by
  induction l generalizing i with
  | nil => simp at h
  | cons a t ih =>
    cases i with
    | zero => rfl
    | succ k => exact ih k (by simpa using h)

theorem getD_set_ne (l : List α) (i j : Nat) (x d : α) (h : i ≠ j) :
    (l.set i x).getD j d = l.getD j d := by
  induction l generalizing i j with
  | nil => simp [List.set]
  | cons a t ih =>
    cases i with
    | zero => cases j with
      | zero => exact absurd rfl h
      | succ k => rfl
    | succ m => cases j with
      | zero => rfl
      | succ k => exact ih m k (by omega)

theorem set_getD_self (l : List α) (i : Nat) (d : α) :
    l.set i (l.getD i d) = l := by
  induction l generalizing i with
  | nil => rfl
  | cons a t ih =>
    cases i with
    | zero => rfl
    | succ k => simpa using ih k

theorem set_append_end (l : List α) (x y : α) :
    (l ++ [x]).set l.length y = l ++ [y] := by
  induction l with
  | nil => rfl
  | cons a t ih => simpa using ih

theorem getD_cons_set_perm (l : List α) (k : Nat) (x d : α) (hk : k < l.length) :
    List.Perm (l.getD k d :: l.set k x) (x :: l) := by
  induction l generalizing k with
  | nil => simp at hk
  | cons a t ih =>
    cases k with
    | zero => exact List.Perm.swap x a t
    | succ m =>
      have h1 : List.Perm (t.getD m d :: a :: t.set m x)
          (a :: (t.getD m d :: t.set m x)) := List.Perm.swap a (t.getD m d) _
      have h2 : List.Perm (a :: (t.getD m d :: t.set m x)) (a :: (x :: t)) :=
        List.Perm.cons a (ih m (by simpa using hk))
      have h3 : List.Perm (a :: x :: t) (x :: a :: t) := List.Perm.swap x a t
      exact ((h1.trans h2).trans h3)

theorem set_swap_perm (l : List α) (i j : Nat) (d : α) (hij : i < j)
    (hj : j < l.length) :
    List.Perm ((l.set i (l.getD j d)).set j (l.getD i d)) l := by
  induction l generalizing i j with
  | nil => simp at hj
  | cons a t ih =>
    cases i with
    | zero =>
      cases j with
      | zero => omega
      | succ k =>
        have hk : k < t.length := by simpa using hj
        exact getD_cons_set_perm t k a d hk
    | succ m =>
      cases j with
      | zero => omega
      | succ k =>
        exact List.Perm.cons a (ih m k (by omega) (by simpa using hj))

/-! ### Binary rendering and parsing -/

theorem bitsToNat_cons (b : Bool) (l : List Bool) :
    bitsToNat (b :: l) = (if b then 1 else 0) * 2 ^ l.length + bitsToNat l := by
  have key : ∀ (l : List Bool) (a : Nat),
      l.foldl (fun a b => 2 * a + (if b then 1 else 0)) a
        = a * 2 ^ l.length + l.foldl (fun a b => 2 * a + (if b then 1 else 0)) 0 := by
    intro l
    induction l with
    | nil => intro a; simp
    | cons c t ih =>
      intro a
      simp only [List.foldl_cons, List.length_cons]
      rw [ih (2 * a + if c then 1 else 0), ih (2 * 0 + if c then 1 else 0)]
      ring
  simp only [bitsToNat, List.foldl_cons]
  rw [key l (2 * 0 + if b then 1 else 0)]
  cases b <;> simp <;> ring

theorem bitsToNat_snoc (l : List Bool) (b : Bool) :
    bitsToNat (l ++ [b]) = 2 * bitsToNat l + (if b then 1 else 0) := by
  simp [bitsToNat, List.foldl_append]

theorem bitsToNat_lt (l : List Bool) : bitsToNat l < 2 ^ l.length := by
  induction l with
  | nil => simp [bitsToNat]
  | cons b t ih =>
    rw [bitsToNat_cons]
    simp only [List.length_cons, pow_succ]
    cases b <;> simp <;> omega

theorem bitsToNat_replicate_false (k : Nat) (l : List Bool) :
    bitsToNat (List.replicate k false ++ l) = bitsToNat l := by
  induction k with
  | zero => rfl
  | succ m ih =>
    have : List.replicate (m + 1) false ++ l = false :: (List.replicate m false ++ l) := by
      simp [List.replicate_succ]
    rw [this, bitsToNat_cons, ih]
    simp

theorem natBinAux_acc (n : Nat) : ∀ acc : List Bool,
    natBinAux n acc = natBinAux n [] ++ acc := by
  induction n using Nat.strong_induction_on with
  | _ n ih =>
    intro acc
    by_cases h0 : n = 0
    · simp [natBinAux, h0]
    · have hlt : n / 2 < n := Nat.div_lt_self (by omega) (by omega)
      rw [natBinAux, if_neg h0]
      conv_rhs => rw [natBinAux, if_neg h0]
      rw [ih _ hlt (decide (n % 2 = 1) :: acc), ih _ hlt [decide (n % 2 = 1)]]
      simp

theorem bitsToNat_natBinAux (n : Nat) : bitsToNat (natBinAux n []) = n := by
  induction n using Nat.strong_induction_on with
  | _ n ih =>
    by_cases h0 : n = 0
    · simp [natBinAux, h0, bitsToNat]
    · have hlt : n / 2 < n := Nat.div_lt_self (by omega) (by omega)
      rw [natBinAux, if_neg h0, natBinAux_acc, bitsToNat_snoc, ih _ hlt]
      rcases Nat.mod_two_eq_zero_or_one n with h2 | h2 <;> simp [h2] <;> omega

theorem bitsToNat_natToBin (n : Nat) : bitsToNat (natToBin n) = n := by
  unfold natToBin
  split
  · simp_all [bitsToNat]
  · exact bitsToNat_natBinAux n

theorem length_natBinAux_le (k : Nat) : ∀ n : Nat, n < 2 ^ k →
    (natBinAux n []).length ≤ k := by
  induction k with
  | zero => intro n h; interval_cases n; simp [natBinAux]
  | succ j ih =>
    intro n h
    by_cases h0 : n = 0
    · simp [natBinAux, h0]
    · rw [natBinAux, if_neg h0, natBinAux_acc]
      have hlt : n / 2 < 2 ^ j := by
        have hp : 2 ^ (j + 1) = 2 * 2 ^ j := by ring
        omega
      have := ih _ hlt
      simp
      omega

theorem length_natToBin_le (k n : Nat) (hk : 0 < k) (h : n < 2 ^ k) :
    (natToBin n).length ≤ k := by
  unfold natToBin
  split
  · simpa
  · exact length_natBinAux_le k n h

theorem pos_of_head_true (l : List Bool) (h : l.head? = some true) :
    0 < bitsToNat l := by
  cases l with
  | nil => simp at h
  | cons b t =>
    simp at h
    subst h
    rw [bitsToNat_cons]
    have h2 : 0 < 2 ^ t.length := Nat.pos_pow_of_pos _ (by omega)
    simp only [ite_true, one_mul]
    omega

theorem natToBin_bitsToNat_of_head_true (l : List Bool) :
    l.head? = some true → natToBin (bitsToNat l) = l := by
  induction l using List.reverseRecOn with
  | nil => intro h; simp at h
  | append_singleton ys y ih =>
    intro h
    cases ys with
    | nil =>
      simp at h
      subst h
      simp [bitsToNat, natToBin, natBinAux]
    | cons z zs =>
      have hz : z = true := by simpa using h
      subst hz
      have hpos : 0 < bitsToNat (true :: zs) := pos_of_head_true _ (by simp)
      have hsnoc := bitsToNat_snoc (true :: zs) y
      have hne : ¬ bitsToNat ((true :: zs) ++ [y]) = 0 := by
        rw [hsnoc]; cases y <;> simp <;> omega
      unfold natToBin
      rw [if_neg hne, natBinAux, if_neg hne, natBinAux_acc]
      have hdiv : bitsToNat ((true :: zs) ++ [y]) / 2 = bitsToNat (true :: zs) := by
        rw [hsnoc]; cases y <;> simp <;> omega
      have hmod : decide (bitsToNat ((true :: zs) ++ [y]) % 2 = 1) = y := by
        have h2 : bitsToNat ((true :: zs) ++ [y]) % 2 = (if y then 1 else 0) := by
          rw [hsnoc]; cases y <;> simp <;> omega
        rw [h2]; cases y <;> simp
      rw [hdiv, hmod]
      have hbin := ih (by simp)
      unfold natToBin at hbin
      rw [if_neg (by omega)] at hbin
      rw [hbin]

theorem padded_inverse (l : List Bool) (h : l ≠ []) :
    (natToBin (bitsToNat l)).length ≤ l.length ∧
      List.replicate (l.length - (natToBin (bitsToNat l)).length) false ++
        natToBin (bitsToNat l) = l := by
  induction l with
  | nil => exact absurd rfl h
  | cons b t ih =>
    cases b with
    | true =>
      have := natToBin_bitsToNat_of_head_true (true :: t) (by simp)
      rw [this]
      simp
    | false =>
      cases t with
      | nil => exact ⟨by simp [bitsToNat, natToBin], by simp [bitsToNat, natToBin]⟩
      | cons c u =>
        have hbt : bitsToNat (false :: c :: u) = bitsToNat (c :: u) := by
          have := bitsToNat_replicate_false 1 (c :: u)
          simpa using this
        obtain ⟨ih1, ih2⟩ := ih (by simp)
        rw [hbt]
        constructor
        · simp only [List.length_cons] at ih1 ⊢; omega
        · have hrep : (false :: c :: u : List Bool).length -
              (natToBin (bitsToNat (c :: u))).length
              = ((c :: u : List Bool).length - (natToBin (bitsToNat (c :: u))).length) + 1 := by
            simp only [List.length_cons] at ih1 ⊢
            omega
          rw [hrep, List.replicate_succ]
          simp only [List.cons_append]
          rw [ih2]

theorem format08b_bitsToNat (l : List Bool) (h : l.length = 8) :
    format08b (bitsToNat l) = l := by
  have hne : l ≠ [] := by intro hl; rw [hl] at h; simp at h
  obtain ⟨h1, h2⟩ := padded_inverse l hne
  unfold format08b
  rw [h] at h2
  exact h2

theorem length_format08b (n : Nat) (h : n < 256) : (format08b n).length = 8 := by
  have := length_natToBin_le 8 n (by omega) (by norm_num; omega)
  unfold format08b
  simp
  omega

theorem bitsToNat_format08b (n : Nat) (h : n < 256) :
    bitsToNat (format08b n) = n := by
  unfold format08b
  rw [bitsToNat_replicate_false, bitsToNat_natToBin]

/-! ### Permutation facts for the heapq model -/

theorem perm_siftdown (p : Nat) : ∀ (heap : List PyTree) (s : Nat) (x : PyTree),
    p < heap.length → List.Perm (siftdown heap s p x) (heap.set p x) := by
  induction p using Nat.strong_induction_on with
  | _ p ih =>
    intro heap s x hp
    rw [siftdown]
    split
    · rename_i hs
      split
      · rename_i hf
        have hpp : (p - 1) / 2 < p := by
          have := Nat.div_le_self (p - 1) 2; omega
        have hlen : (p - 1) / 2 < (heap.set p (heap.getD ((p - 1) / 2) .nil)).length := by
          rw [List.length_set]; omega
        have h1 := ih _ hpp (heap.set p (heap.getD ((p - 1) / 2) .nil)) s x hlen
        refine h1.trans ?_
        have hBp : (heap.set p x).set p (heap.getD ((p - 1) / 2) .nil)
            = heap.set p (heap.getD ((p - 1) / 2) .nil) := List.set_set ..
        have hcomm : ((heap.set p x).set ((p - 1) / 2) x).set p (heap.getD ((p - 1) / 2) .nil)
            = ((heap.set p x).set p (heap.getD ((p - 1) / 2) .nil)).set ((p - 1) / 2) x :=
          List.set_comm x (heap.getD ((p - 1) / 2) .nil) (heap.set p x) (by omega)
        have hsw := set_swap_perm (heap.set p x) ((p - 1) / 2) p .nil (by omega)
          (by rw [List.length_set]; omega)
        rw [getD_set_self heap p x .nil hp,
          getD_set_ne heap p ((p - 1) / 2) x .nil (by omega)] at hsw
        rw [hcomm, hBp] at hsw
        exact hsw
      · exact List.Perm.refl _
    · exact List.Perm.refl _

theorem perm_siftupLoop (k : Nat) : ∀ (heap : List PyTree) (s p : Nat) (x : PyTree)
    (e : Nat), e - p = k → e = heap.length → p < e →
    List.Perm (siftupLoop heap s p x e) (heap.set p x) := by
  induction k using Nat.strong_induction_on with
  | _ k ih =>
    intro heap s p x e hk he hp
    rw [siftupLoop]
    split
    · rename_i h
      have h1 := childIdx_gt heap p e
      have h2 := childIdx_lt heap p e h
      have hrec := ih (e - childIdx heap p e) (by omega)
        (heap.set p (heap.getD (childIdx heap p e) .nil)) s (childIdx heap p e) x e
        rfl (by rw [List.length_set]; omega) (by omega)
      refine hrec.trans ?_
      have hBp : (heap.set p x).set p (heap.getD (childIdx heap p e) .nil)
          = heap.set p (heap.getD (childIdx heap p e) .nil) := List.set_set ..
      have hsw := set_swap_perm (heap.set p x) p (childIdx heap p e) .nil (by omega)
        (by rw [List.length_set]; omega)
      rw [getD_set_self heap p x .nil (by omega),
        getD_set_ne heap p (childIdx heap p e) x .nil (by omega)] at hsw
      rw [hBp] at hsw
      exact hsw
    · have h1 := perm_siftdown p (heap.set p x) s x (by rw [List.length_set]; omega)
      rw [List.set_set] at h1
      exact h1

theorem perm_siftup (heap : List PyTree) (p : Nat) (hp : p < heap.length) :
    List.Perm (siftup heap p) heap := by
  have h := perm_siftupLoop (heap.length - p) heap p p (heap.getD p .nil)
    heap.length rfl rfl hp
  rw [set_getD_self] at h
  exact h

theorem perm_heappush (heap : List PyTree) (x : PyTree) :
    List.Perm (heappush heap x) (x :: heap) := by
  have h := perm_siftdown heap.length (heap ++ [x]) 0 x (by simp)
  rw [set_append_end] at h
  refine h.trans ?_
  exact List.perm_append_comm

theorem perm_heappop (heap : List PyTree) (h : heap ≠ []) :
    List.Perm ((heappop heap).1 :: (heappop heap).2) heap := by
  unfold heappop
  split
  · rename_i hdrop
    match heap, h with
    | [a], _ => simp
    | a :: b :: t, _ => simp at hdrop
  · rename_i r rs hdrop
    have hlast : heap.getLast?.getD .nil = heap.getLast h := by
      rw [List.getLast?_eq_getLast heap h]
      rfl
    have hheap : (r :: rs) ++ [heap.getLast h] = heap := by
      rw [← hdrop]
      exact List.dropLast_append_getLast h
    have h0 : (0 : Nat) < (r :: rs).length := by simp
    have hperm1 : List.Perm (siftup ((r :: rs).set 0 (heap.getLast?.getD .nil)) 0)
        ((r :: rs).set 0 (heap.getLast?.getD .nil)) :=
      perm_siftup _ 0 (by simp)
    simp only []
    refine (List.Perm.cons r hperm1).trans ?_
    have hgd : r = (r :: rs).getD 0 .nil := rfl
    conv_lhs => rw [hgd]
    refine (getD_cons_set_perm (r :: rs) 0 _ .nil h0).trans ?_
    rw [hlast]
    have hp2 : List.Perm (heap.getLast h :: r :: rs) ((r :: rs) ++ [heap.getLast h]) :=
      @List.perm_append_comm _ [heap.getLast h] (r :: rs)
    rw [hheap] at hp2
    exact hp2

/-! ### Invariants of the Huffman construction -/

theorem charsM_merge (f : Nat) (a b : PyTree) :
    PyTree.charsM (.node f none a b) = a.charsM + b.charsM := by
  simp [PyTree.charsM]

theorem charsM_leaf (f c : Nat) :
    PyTree.charsM (.node f (some c) .nil .nil) = {c} := by
  simp [PyTree.charsM]

theorem buildLoop_length (n : Nat) : ∀ heap : List PyTree, heap.length = n →
    heap ≠ [] → (buildLoop heap).length = 1 := by
  induction n using Nat.strong_induction_on with
  | _ n ih =>
    intro heap hn hne
    rw [buildLoop.eq_def]
    split
    · rename_i h
      have hlen : (heappush (heappop (heappop heap).2).2
          (.node ((heappop heap).1.freq + (heappop (heappop heap).2).1.freq) none
            (heappop heap).1 (heappop (heappop heap).2).1)).length = heap.length - 1 := by
        rw [length_heappush, length_heappop_snd, length_heappop_snd]
        omega
      refine ih (n - 1) (by omega) _ (by rw [hlen]; omega) ?_
      intro hx
      rw [hx] at hlen
      simp at hlen
      omega
    · rename_i h
      have := List.length_pos.mpr hne
      omega

theorem buildLoop_mem (P : PyTree → Prop)
    (hmerge : ∀ f a b, P a → P b → P (.node f none a b)) (n : Nat) :
    ∀ heap : List PyTree, heap.length = n → (∀ x ∈ heap, P x) →
    ∀ x ∈ buildLoop heap, P x := by
  induction n using Nat.strong_induction_on with
  | _ n ih =>
    intro heap hn hall
    rw [buildLoop.eq_def]
    split
    · rename_i h
      have hne : heap ≠ [] := by
        intro hx; rw [hx] at h; simp at h
      have hperm1 := perm_heappop heap hne
      have hp11 : P (heappop heap).1 :=
        hall _ (hperm1.subset (List.mem_cons_self _ _))
      have hall1 : ∀ x ∈ (heappop heap).2, P x := fun x hx =>
        hall x (hperm1.subset (List.mem_cons_of_mem _ hx))
      have h1len : (heappop heap).2.length = heap.length - 1 := length_heappop_snd heap
      have h1ne : (heappop heap).2 ≠ [] := by
        intro hx; rw [hx] at h1len; simp at h1len; omega
      have hperm2 := perm_heappop (heappop heap).2 h1ne
      have hp21 : P (heappop (heappop heap).2).1 :=
        hall1 _ (hperm2.subset (List.mem_cons_self _ _))
      have hall2 : ∀ x ∈ (heappop (heappop heap).2).2, P x := fun x hx =>
        hall1 x (hperm2.subset (List.mem_cons_of_mem _ hx))
      have hallpush : ∀ x ∈ heappush (heappop (heappop heap).2).2
          (.node ((heappop heap).1.freq + (heappop (heappop heap).2).1.freq) none
            (heappop heap).1 (heappop (heappop heap).2).1), P x := by
        intro x hx
        have := (perm_heappush _ _).subset hx
        rcases List.mem_cons.mp this with h1 | h2
        · rw [h1]; exact hmerge _ _ _ hp11 hp21
        · exact hall2 x h2
      have hlen : (heappush (heappop (heappop heap).2).2
          (.node ((heappop heap).1.freq + (heappop (heappop heap).2).1.freq) none
            (heappop heap).1 (heappop (heappop heap).2).1)).length = n - 1 := by
        rw [length_heappush, length_heappop_snd, length_heappop_snd]
        omega
      exact ih (n - 1) (by omega) _ hlen hallpush
    · exact hall

theorem buildLoop_chars (n : Nat) : ∀ heap : List PyTree, heap.length = n →
    ((buildLoop heap).map PyTree.charsM).sum = (heap.map PyTree.charsM).sum := by
  induction n using Nat.strong_induction_on with
  | _ n ih =>
    intro heap hn
    rw [buildLoop.eq_def]
    split
    · rename_i h
      have hne : heap ≠ [] := by
        intro hx; rw [hx] at h; simp at h
      have hperm1 := perm_heappop heap hne
      have h1len : (heappop heap).2.length = heap.length - 1 := length_heappop_snd heap
      have h1ne : (heappop heap).2 ≠ [] := by
        intro hx; rw [hx] at h1len; simp at h1len; omega
      have hperm2 := perm_heappop (heappop heap).2 h1ne
      have hlen : (heappush (heappop (heappop heap).2).2
          (.node ((heappop heap).1.freq + (heappop (heappop heap).2).1.freq) none
            (heappop heap).1 (heappop (heappop heap).2).1)).length = n - 1 := by
        rw [length_heappush, length_heappop_snd, length_heappop_snd]
        omega
      rw [ih (n - 1) (by omega) _ hlen]
      have e1 := (List.Perm.map PyTree.charsM (perm_heappush (heappop (heappop heap).2).2
        (.node ((heappop heap).1.freq + (heappop (heappop heap).2).1.freq) none
          (heappop heap).1 (heappop (heappop heap).2).1))).sum_eq
      have e2 := (List.Perm.map PyTree.charsM hperm1).sum_eq
      have e3 := (List.Perm.map PyTree.charsM hperm2).sum_eq
      simp only [List.map_cons, List.sum_cons, charsM_merge] at e1 e2 e3
      rw [e1, ← e2, ← e3]
      abel
    · rfl

theorem bhtHeap_length (freq : List (Nat × Nat)) : (bhtHeap freq).length = freq.length := by
  unfold bhtHeap
  suffices h : ∀ (fs : List (Nat × Nat)) (h0 : List PyTree),
      (fs.foldl (fun h cf => heappush h (.node cf.2 (some cf.1) .nil .nil)) h0).length
        = h0.length + fs.length by
    simpa using h freq []
  intro fs
  induction fs with
  | nil => simp
  | cons cf rest ih =>
    intro h0
    simp only [List.foldl_cons, List.length_cons]
    rw [ih (heappush h0 (.node cf.2 (some cf.1) .nil .nil)), length_heappush]
    omega

theorem bhtHeap_mem (P : PyTree → Prop) (freq : List (Nat × Nat))
    (hleaf : ∀ cf ∈ freq, P (.node cf.2 (some cf.1) .nil .nil)) :
    ∀ x ∈ bhtHeap freq, P x := by
  unfold bhtHeap
  suffices h : ∀ (fs : List (Nat × Nat)) (h0 : List PyTree),
      (∀ cf ∈ fs, P (.node cf.2 (some cf.1) .nil .nil)) → (∀ x ∈ h0, P x) →
      ∀ x ∈ fs.foldl (fun h cf => heappush h (.node cf.2 (some cf.1) .nil .nil)) h0, P x by
    exact h freq [] hleaf (by simp)
  intro fs
  induction fs with
  | nil => intro h0 _ hall; simpa using hall
  | cons cf rest ih =>
    intro h0 hfs hall
    simp only [List.foldl_cons]
    refine ih _ (fun x hx => hfs x (List.mem_cons_of_mem _ hx)) ?_
    intro x hx
    have := (perm_heappush _ _).subset hx
    rcases List.mem_cons.mp this with h1 | h2
    · rw [h1]; exact hfs cf (List.mem_cons_self _ _)
    · exact hall x h2

theorem bhtHeap_chars (freq : List (Nat × Nat)) :
    ((bhtHeap freq).map PyTree.charsM).sum = ((freq.map Prod.fst : List Nat) : Multiset Nat) := by
  unfold bhtHeap
  suffices h : ∀ (fs : List (Nat × Nat)) (h0 : List PyTree),
      ((fs.foldl (fun h cf => heappush h (.node cf.2 (some cf.1) .nil .nil)) h0).map
        PyTree.charsM).sum
        = (h0.map PyTree.charsM).sum + ((fs.map Prod.fst : List Nat) : Multiset Nat) by
    simpa using h freq []
  intro fs
  induction fs with
  | nil => simp
  | cons cf rest ih =>
    intro h0
    simp only [List.foldl_cons, List.map_cons]
    rw [ih (heappush h0 (.node cf.2 (some cf.1) .nil .nil))]
    have e1 := (List.Perm.map PyTree.charsM
      (perm_heappush h0 (.node cf.2 (some cf.1) .nil .nil))).sum_eq
    rw [e1]
    simp only [List.map_cons, List.sum_cons, charsM_leaf]
    rw [← Multiset.cons_coe]
    simp only [Multiset.singleton_add, Multiset.cons_add, Multiset.add_cons]

theorem bht_single (freq : List (Nat × Nat)) (h : freq ≠ []) :
    ∃ t, buildLoop (bhtHeap freq) = [t] ∧ build_huffman_tree freq = t := by
  have hlen := bhtHeap_length freq
  have hne : bhtHeap freq ≠ [] := by
    intro hx
    rw [hx] at hlen
    simp at hlen
    exact h (List.eq_nil_of_length_eq_zero hlen.symm)
  have h1 := buildLoop_length (bhtHeap freq).length (bhtHeap freq) rfl hne
  obtain ⟨t, ht⟩ := List.length_eq_one.mp h1
  refine ⟨t, ht, ?_⟩
  unfold build_huffman_tree
  rw [if_neg (by simpa [List.isEmpty_iff] using hne), ht]
  rfl

theorem build_huffman_tree_strict (freq : List (Nat × Nat)) (h : freq ≠ []) :
    (build_huffman_tree freq).Strict = true := by
  obtain ⟨t, ht, hbt⟩ := bht_single freq h
  have hinv := buildLoop_mem (fun x => x.Strict = true)
    (by intro f a b ha hb; simp [PyTree.Strict, ha, hb])
    (bhtHeap freq).length (bhtHeap freq) rfl
    (bhtHeap_mem _ freq (by intro cf _; simp [PyTree.Strict]))
  have hmem : t ∈ buildLoop (bhtHeap freq) := by
    rw [ht]; exact List.mem_singleton_self t
  rw [hbt]
  exact hinv t hmem

theorem build_huffman_tree_nil_iff (freq : List (Nat × Nat)) :
    build_huffman_tree freq = .nil ↔ freq = [] := by
  constructor
  · intro hnil
    by_contra hne
    have := build_huffman_tree_strict freq hne
    rw [hnil] at this
    simp [PyTree.Strict] at this
  · intro h
    subst h
    rfl

theorem build_huffman_tree_charsM (freq : List (Nat × Nat)) :
    (build_huffman_tree freq).charsM = ((freq.map Prod.fst : List Nat) : Multiset Nat) := by
  by_cases h : freq = []
  · subst h
    simp [build_huffman_tree, bhtHeap, PyTree.charsM]
  · obtain ⟨t, ht, hbt⟩ := bht_single freq h
    have hc := buildLoop_chars (bhtHeap freq).length (bhtHeap freq) rfl
    rw [ht] at hc
    simp only [List.map_cons, List.map_nil, List.sum_cons, List.sum_nil, add_zero] at hc
    rw [hbt, hc, bhtHeap_chars]

/-! ### The code table as a list of assignments -/

/-- Folding a list of dict assignments in order. -/
def applyEntries (es : List (Nat × List Bool)) (d : Nat → Option (List Bool)) :
    Nat → Option (List Bool) :=
  es.foldl (fun d e => dictSet d e.1 e.2) d

/-- The `(char, code)` assignments that the stack loop performs for one stack
entry, in execution order (depth-first, left before right). -/
def codesIn : PyTree → List Bool → List (Nat × List Bool)
  | .nil, _ => []
  | .node _ (some c) _ _, p => [(c, if p.isEmpty then [false] else p)]
  | .node _ none l r, p => codesIn l (p ++ [false]) ++ codesIn r (p ++ [true])

theorem buildCodesLoop_eq (n : Nat) : ∀ (stack : List (PyTree × List Bool))
    (d : Nat → Option (List Bool)), (stack.map (fun e => e.1.size)).sum = n →
    buildCodesLoop stack d = applyEntries (stack.flatMap (fun e => codesIn e.1 e.2)) d := by
  induction n using Nat.strong_induction_on with
  | _ n ih =>
    intro stack d hn
    match stack with
    | [] => simp [buildCodesLoop, applyEntries]
    | (.nil, p) :: rest =>
      simp only [buildCodesLoop]
      rw [ih ((rest.map (fun e => e.1.size)).sum) (by simp [PyTree.size] at hn ⊢; omega)
        rest d rfl]
      simp [codesIn]
    | (.node f (some c) l r, p) :: rest =>
      simp only [buildCodesLoop]
      rw [ih ((rest.map (fun e => e.1.size)).sum)
        (by simp [PyTree.size] at hn ⊢; omega) rest _ rfl]
      simp only [List.flatMap_cons, codesIn, applyEntries, List.singleton_append,
        List.foldl_cons]
    | (.node f none l r, p) :: rest =>
      simp only [buildCodesLoop]
      have hm : (((if l = .nil then [] else [(l, p ++ [false])]) ++
          (if r = .nil then [] else [(r, p ++ [true])]) ++ rest).map
            (fun e => e.1.size)).sum < n := by
        rw [← hn]
        split <;> split <;> simp [PyTree.size] <;> omega
      rw [ih _ hm _ d rfl]
      have hflat : (((if l = .nil then [] else [(l, p ++ [false])]) ++
          (if r = .nil then [] else [(r, p ++ [true])]) ++ rest).flatMap
            (fun e => codesIn e.1 e.2))
          = codesIn l (p ++ [false]) ++ codesIn r (p ++ [true]) ++
            rest.flatMap (fun e => codesIn e.1 e.2) := by
        by_cases hl : l = .nil <;> by_cases hr : r = .nil <;>
          simp [hl, hr, codesIn, List.flatMap_append]
      rw [hflat]
      simp only [List.flatMap_cons, codesIn, List.append_assoc]

theorem build_codes_iterative_eq (root : PyTree) :
    build_codes_iterative root = applyEntries (codesIn root []) (fun _ => none) := by
  unfold build_codes_iterative
  split
  · rename_i h
    subst h
    rfl
  · rw [buildCodesLoop_eq (([(root, [])].map (fun e => e.1.size)).sum) _ _ rfl]
    simp

theorem dictSet_same (d : Nat → Option (List Bool)) (c : Nat) (v : List Bool) :
    dictSet d c v c = some v := by
  simp [dictSet]

theorem dictSet_other (d : Nat → Option (List Bool)) (c : Nat) (v : List Bool)
    (x : Nat) (h : x ≠ c) : dictSet d c v x = d x := by
  simp [dictSet, h]

theorem applyEntries_not_mem : ∀ (es : List (Nat × List Bool)) (d : Nat → Option (List Bool))
    (c : Nat), c ∉ es.map Prod.fst → applyEntries es d c = d c := by
  intro es
  induction es with
  | nil => intro d c _; rfl
  | cons e rest ih =>
    intro d c hc
    simp only [List.map_cons, List.mem_cons] at hc
    push_neg at hc
    rw [applyEntries, List.foldl_cons]
    have := ih (dictSet d e.1 e.2) c hc.2
    rw [applyEntries] at this
    rw [this, dictSet_other _ _ _ _ hc.1]

theorem applyEntries_mem : ∀ (es : List (Nat × List Bool)) (d : Nat → Option (List Bool))
    (c : Nat), c ∈ es.map Prod.fst →
    ∃ q, applyEntries es d c = some q ∧ (c, q) ∈ es := by
  intro es
  induction es with
  | nil => intro d c hc; simp at hc
  | cons e rest ih =>
    intro d c hc
    by_cases hr : c ∈ rest.map Prod.fst
    · obtain ⟨q, hq, hmem⟩ := ih (dictSet d e.1 e.2) c hr
      exact ⟨q, hq, List.mem_cons_of_mem _ hmem⟩
    · have hce : c = e.1 := by
        simp only [List.map_cons, List.mem_cons] at hc
        tauto
      refine ⟨e.2, ?_, ?_⟩
      · rw [applyEntries, List.foldl_cons]
        have := applyEntries_not_mem rest (dictSet d e.1 e.2) c hr
        rw [applyEntries] at this
        rw [this, hce, dictSet_same]
      · rw [hce]
        exact List.mem_cons_self _ _

theorem applyEntries_some : ∀ (es : List (Nat × List Bool)) (d : Nat → Option (List Bool))
    (c : Nat) (q : List Bool), applyEntries es d c = some q →
    (c, q) ∈ es ∨ d c = some q := by
  intro es
  induction es with
  | nil => intro d c q h; exact Or.inr h
  | cons e rest ih =>
    intro d c q h
    rw [applyEntries, List.foldl_cons] at h
    rcases ih (dictSet d e.1 e.2) c q h with h1 | h2
    · exact Or.inl (List.mem_cons_of_mem _ h1)
    · by_cases hce : c = e.1
      · rw [hce, dictSet_same] at h2
        have hq : q = e.2 := (Option.some.inj h2).symm
        left
        rw [hce, hq]
        exact List.mem_cons_self _ _
      · rw [dictSet_other _ _ _ _ hce] at h2
        exact Or.inr h2

/-! ### Prefix-freeness of generated code tables -/

theorem codesIn_pfx : ∀ (t : PyTree) (p : List Bool), p ≠ [] →
    ∀ e ∈ codesIn t p, p <+: e.2 := by
  intro t
  induction t with
  | nil => intro p _ e he; simp [codesIn] at he
  | node f c l r ihl ihr =>
    intro p hp e he
    cases c with
    | some c0 =>
      simp only [codesIn] at he
      have hpe : p.isEmpty = false := by
        cases p with
        | nil => exact absurd rfl hp
        | cons _ _ => rfl
      rw [hpe] at he
      simp at he
      rw [he]
    | none =>
      simp only [codesIn, List.mem_append] at he
      rcases he with h1 | h2
      · exact List.IsPrefix.trans ( List.prefix_append p [false]) (ihl (p ++ [false]) (by simp) e h1)
      · exact List.IsPrefix.trans ( List.prefix_append p [true]) (ihr (p ++ [true]) (by simp) e h2)

theorem pfx_cross (p q1 q2 : List Bool) (b1 b2 : Bool) (hb : b1 ≠ b2)
    (h1 : (p ++ [b1]) <+: q1) (h2 : (p ++ [b2]) <+: q2) : ¬ q1 <+: q2 := by
  intro hq
  have h1' : (p ++ [b1]) <+: q2 := h1.trans hq
  have hle : (p ++ [b1]).length ≤ (p ++ [b2]).length := by simp
  have heq := List.IsPrefix.eq_of_length
    ( List.prefix_of_prefix_length_le h1' h2 hle) (by simp)
  have : b1 = b2 := by
    have := List.append_cancel_left heq
    simpa using this
  exact hb this

theorem codesIn_pairwise : ∀ (t : PyTree), t.Strict = true →
    ∀ (p : List Bool) (e1 e2 : Nat × List Bool), e1 ∈ codesIn t p → e2 ∈ codesIn t p →
    e1.1 ≠ e2.1 → ¬ e1.2 <+: e2.2 := by
  intro t
  induction t with
  | nil => intro hs; simp [PyTree.Strict] at hs
  | node f c l r ihl ihr =>
    intro hs p e1 e2 h1 h2 hne
    cases c with
    | some c0 =>
      simp only [codesIn, List.mem_singleton] at h1 h2
      rw [h1, h2] at hne
      exact absurd rfl hne
    | none =>
      have hsl : l.Strict = true := by
        simp [PyTree.Strict] at hs; exact hs.1
      have hsr : r.Strict = true := by
        simp [PyTree.Strict] at hs; exact hs.2
      simp only [codesIn, List.mem_append] at h1 h2
      rcases h1 with h1l | h1r <;> rcases h2 with h2l | h2r
      · exact ihl hsl (p ++ [false]) e1 e2 h1l h2l hne
      · exact pfx_cross p e1.2 e2.2 false true (by simp)
          (codesIn_pfx l (p ++ [false]) (by simp) e1 h1l)
          (codesIn_pfx r (p ++ [true]) (by simp) e2 h2r)
      · exact pfx_cross p e1.2 e2.2 true false (by simp)
          (codesIn_pfx r (p ++ [true]) (by simp) e1 h1r)
          (codesIn_pfx l (p ++ [false]) (by simp) e2 h2l)
      · exact ihr hsr (p ++ [true]) e1 e2 h1r h2r hne

theorem codesIn_fst_charsM : ∀ (t : PyTree), t.Strict = true → ∀ p : List Bool,
    (((codesIn t p).map Prod.fst : List Nat) : Multiset Nat) = t.charsM := by
  intro t
  induction t with
  | nil => intro hs; simp [PyTree.Strict] at hs
  | node f c l r ihl ihr =>
    intro hs p
    cases c with
    | some c0 =>
      have hlr : l = .nil ∧ r = .nil := by
        simp [PyTree.Strict] at hs; exact hs
      rw [hlr.1, hlr.2]
      simp [codesIn, PyTree.charsM]
    | none =>
      have hsl : l.Strict = true := by
        simp [PyTree.Strict] at hs; exact hs.1
      have hsr : r.Strict = true := by
        simp [PyTree.Strict] at hs; exact hs.2
      simp only [codesIn, List.map_append]
      rw [← Multiset.coe_add, ihl hsl, ihr hsr, charsM_merge]

/-! ### Decoding along code paths -/

/-- One decoder step: `node.left if bit == '0' else node.right`. -/
def stepT (t : PyTree) (b : Bool) : PyTree :=
  if b then t.right else t.left

theorem stepT_node (f : Nat) (c : Option Nat) (l r : PyTree) (b : Bool) :
    stepT (.node f c l r) b = if b then r else l := by
  cases b <;> simp [stepT, PyTree.left, PyTree.right]

/-- Predicate `followsTo n q c`: starting at `n`, the bits of `q` step through
symbol-free nodes and reach a node carrying symbol `c` exactly at the last
bit — the condition under which the decoder loop emits `c` after consuming
`q` and resets to the root. -/
def followsTo : PyTree → List Bool → Nat → Bool
  | _, [], _ => false
  | n, b :: bs, c =>
    match stepT n b with
    | .nil => false
    | .node _ (some c') _ _ => bs.isEmpty && decide (c' = c)
    | .node f none l r => (!bs.isEmpty) && followsTo (.node f none l r) bs c

theorem decodeAux_followsTo (root : PyTree) (c : Nat) :
    ∀ (p : List Bool) (n : PyTree), followsTo n p c = true →
    ∀ bs, decodeAux root n (p ++ bs) = (decodeAux root root bs).map (fun ds => c :: ds) := by
  intro p
  induction p with
  | nil => intro n h; simp [followsTo] at h
  | cons b rest ih =>
    intro n h bs
    rw [followsTo] at h
    cases hstep : stepT n b with
    | nil => rw [hstep] at h; simp at h
    | node f' c' l' r' =>
      rw [hstep] at h
      cases n with
      | nil =>
        exfalso
        cases b <;> simp [stepT, PyTree.left, PyTree.right] at hstep
      | node fn cn ln rn =>
        rw [stepT_node] at hstep
        cases c' with
        | some c0 =>
          simp at h
          obtain ⟨hrest, hc0⟩ := h
          subst hrest
          subst hc0
          simp only [List.nil_append, List.cons_append]
          rw [decodeAux, hstep]
        | none =>
          simp at h
          obtain ⟨hrest, hf⟩ := h
          have hws : rest ++ bs = rest ++ bs := rfl
          simp only [List.cons_append]
          rw [decodeAux, hstep]
          exact ih (.node f' none l' r') hf bs

/-- Predicate `reachesNil root n bits`: mirrors the decoder walk and is true exactly
when some step lands on a `nil` child (where Python would crash on
`node.char`). -/
def reachesNil (root : PyTree) : PyTree → List Bool → Bool
  | _, [] => false
  | .nil, _ :: _ => true
  | .node _ _ l r, b :: bs =>
    match (if b then r else l) with
    | .nil => true
    | .node f (some c) cl cr => reachesNil root root bs
    | .node f none cl cr => reachesNil root (.node f none cl cr) bs

theorem decodeAux_none_iff (root : PyTree) : ∀ (bits : List Bool) (n : PyTree),
    decodeAux root n bits = none ↔ reachesNil root n bits = true := by
  intro bits
  induction bits with
  | nil => intro n; simp [decodeAux, reachesNil]
  | cons b bs ih =>
    intro n
    cases n with
    | nil => simp [decodeAux, reachesNil]
    | node f c l r =>
      rw [decodeAux, reachesNil]
      cases hch : (if b then r else l) with
      | nil => simp
      | node f' c' l' r' =>
        cases c' with
        | some c0 => simp [Option.map_eq_none', ih root]
        | none => exact ih (.node f' none l' r')

/-- On a strict tree the decoder's reset target and every intermediate node it
can occupy is a symbol-free strict node, so no step ever reaches `nil`: the
decoder always returns a result, silently dropping an incomplete final code. -/
theorem decodeAux_total (root : PyTree) (hrs : root.Strict = true)
    (hrc : root.char = none) : ∀ (bits : List Bool) (n : PyTree),
    n.Strict = true → n.char = none → ∃ ds, decodeAux root n bits = some ds := by
  intro bits
  induction bits with
  | nil => intro n _ _; exact ⟨[], by simp [decodeAux]⟩
  | cons b bs ih =>
    intro n hns hnc
    cases n with
    | nil => simp [PyTree.Strict] at hns
    | node f c l r =>
      have hc : c = none := hnc
      subst hc
      have hlr : l.Strict = true ∧ r.Strict = true := by
        simp [PyTree.Strict] at hns; exact hns
      have hchild : (if b then r else l).Strict = true := by
        cases b <;> simp [hlr.1, hlr.2]
      rw [decodeAux]
      cases hch : (if b then r else l) with
      | nil => rw [hch] at hchild; simp [PyTree.Strict] at hchild
      | node f' c' l' r' =>
        cases c' with
        | some c0 =>
          obtain ⟨ds, hds⟩ := ih root hrs hrc
          exact ⟨c0 :: ds, by rw [hds]; rfl⟩
        | none =>
          rw [hch] at hchild
          exact ih (.node f' none l' r') hchild rfl

/-! ### From code-table entries to decoder paths -/

/-- The decoder, starting at `n`, follows the bits `pre` through symbol-free
nodes and sits at `t` after consuming them (`t` itself is unconstrained when
it is the final node). -/
def PreSteps (n : PyTree) : List Bool → PyTree → Prop
  | [], t => n = t
  | b :: bs, t =>
    if bs = [] then stepT n b = t
    else (stepT n b).char = none ∧ stepT n b ≠ .nil ∧ PreSteps (stepT n b) bs t

theorem presteps_snoc : ∀ (pre : List Bool) (n t m : PyTree) (b : Bool),
    PreSteps n pre t → t.char = none → t ≠ .nil → stepT t b = m →
    PreSteps n (pre ++ [b]) m := by
  intro pre
  induction pre with
  | nil =>
    intro n t m b hp hc hn hs
    have : n = t := hp
    subst this
    simp only [List.nil_append, PreSteps, if_pos rfl]
    exact hs
  | cons a rest ih =>
    intro n t m b hp hc hn hs
    simp only [List.cons_append, PreSteps] at hp ⊢
    rw [if_neg (by simp)]
    by_cases hr : rest = []
    · subst hr
      rw [if_pos rfl] at hp
      refine ⟨by rw [hp]; exact hc, by rw [hp]; exact hn, ?_⟩
      simp only [List.nil_append, PreSteps, if_pos rfl]
      rw [hp]
      exact hs
    · rw [if_neg hr] at hp
      exact ⟨hp.1, hp.2.1, ih _ _ _ _ hp.2.2 hc hn hs⟩

theorem followsTo_of_presteps_leaf : ∀ (pre : List Bool) (n : PyTree) (f c : Nat)
    (x y : PyTree), pre ≠ [] → PreSteps n pre (.node f (some c) x y) →
    followsTo n pre c = true := by
  intro pre
  induction pre with
  | nil => intro n f c x y h; exact absurd rfl h
  | cons b rest ih =>
    intro n f c x y _ hp
    simp only [PreSteps] at hp
    by_cases hr : rest = []
    · subst hr
      rw [if_pos rfl] at hp
      rw [followsTo, hp]
      simp
    · rw [if_neg hr] at hp
      obtain ⟨hc, hn, hps⟩ := hp
      rw [followsTo]
      cases hstep : stepT n b with
      | nil => exact absurd hstep hn
      | node f' c' l' r' =>
        have : c' = none := by rw [hstep] at hc; exact hc
        subst this
        rw [hstep] at hps
        simp only [Bool.and_eq_true, Bool.not_eq_eq_eq_not, Bool.not_true]
        refine ⟨?_, ih _ _ _ _ _ hr hps⟩
        simp [List.isEmpty_iff, hr]

theorem codesIn_followsTo : ∀ (t : PyTree), t.Strict = true →
    ∀ (pre : List Bool), pre ≠ [] → ∀ (c : Nat) (q : List Bool),
    (c, q) ∈ codesIn t pre → ∀ n, PreSteps n pre t → followsTo n q c = true := by
  intro t
  induction t with
  | nil => intro hs; simp [PyTree.Strict] at hs
  | node f c0 l r ihl ihr =>
    intro hs pre hpre c q hmem n hps
    cases c0 with
    | some cc =>
      simp only [codesIn] at hmem
      have hpe : pre.isEmpty = false := by
        cases pre with
        | nil => exact absurd rfl hpre
        | cons _ _ => rfl
      rw [hpe] at hmem
      simp at hmem
      obtain ⟨hc, hq⟩ := hmem
      rw [hq, hc]
      exact followsTo_of_presteps_leaf pre n f cc l r hpre hps
    | none =>
      have hsl : l.Strict = true := by
        simp [PyTree.Strict] at hs; exact hs.1
      have hsr : r.Strict = true := by
        simp [PyTree.Strict] at hs; exact hs.2
      simp only [codesIn, List.mem_append] at hmem
      rcases hmem with h1 | h2
      · refine ihl hsl (pre ++ [false]) (by simp) c q h1 n ?_
        exact presteps_snoc pre n _ l false hps rfl (by simp)
          (by rw [stepT_node]; simp)
      · refine ihr hsr (pre ++ [true]) (by simp) c q h2 n ?_
        exact presteps_snoc pre n _ r true hps rfl (by simp)
          (by rw [stepT_node]; simp)

theorem codes_root_followsTo (f : Nat) (l r : PyTree)
    (hs : (PyTree.node f none l r).Strict = true) (c : Nat) (q : List Bool)
    (hmem : (c, q) ∈ codesIn (.node f none l r) []) :
    followsTo (.node f none l r) q c = true := by
  have hsl : l.Strict = true := by
    simp [PyTree.Strict] at hs; exact hs.1
  have hsr : r.Strict = true := by
    simp [PyTree.Strict] at hs; exact hs.2
  simp only [codesIn, List.nil_append, List.mem_append] at hmem
  rcases hmem with h1 | h2
  · refine codesIn_followsTo l hsl [false] (by simp) c q h1 _ ?_
    simp only [PreSteps, if_pos rfl]
    rw [stepT_node]
    simp
  · refine codesIn_followsTo r hsr [true] (by simp) c q h2 _ ?_
    simp only [PreSteps, if_pos rfl]
    rw [stepT_node]
    simp

/-! ### BitPacker round trip -/

theorem flatten_toBytes : ∀ (n : Nat) (l : List Bool), l.length = n →
    l.length % 8 = 0 → ((toBytes l).map format08b).flatten = l := by
  intro n
  induction n using Nat.strong_induction_on with
  | _ n ih =>
    intro l hn hmod
    cases l with
    | nil => simp [toBytes]
    | cons b bs =>
      have hlen : 8 ≤ (b :: bs).length := by
        have : (b :: bs).length ≠ 0 := by simp
        omega
      simp only [toBytes, List.map_cons, List.flatten_cons]
      have htake : ((b :: bs).take 8).length = 8 := by
        rw [List.length_take]
        omega
      rw [format08b_bitsToNat _ htake]
      rw [ih (((b :: bs).drop 8).length) (by rw [List.length_drop]; omega) _ rfl
        (by rw [List.length_drop]; omega)]
      exact List.take_append_drop 8 (b :: bs)

theorem pack_unpack (s : List Bool) :
    bytes_to_bit_string (bit_string_to_bytes s) = some s := by
  rw [bit_string_to_bytes]
  simp only [bytes_to_bit_string]
  have hmod : (s ++ List.replicate ((8 - s.length % 8) % 8) false).length % 8 = 0 := by
    simp only [List.length_append, List.length_replicate]
    omega
  rw [flatten_toBytes _ _ rfl hmod]
  by_cases hp : (8 - s.length % 8) % 8 > 0
  · rw [if_pos hp]
    congr 1
    have hl : (s ++ List.replicate ((8 - s.length % 8) % 8) false).length
        = s.length + (8 - s.length % 8) % 8 := by
      simp
    rw [hl]
    have : s.length + (8 - s.length % 8) % 8 - (8 - s.length % 8) % 8 = s.length := by
      omega
    rw [this]
    have := List.take_left s (List.replicate ((8 - s.length % 8) % 8) false)
    simpa using this
  · rw [if_neg hp]
    have hz : (8 - s.length % 8) % 8 = 0 := by omega
    rw [hz]
    simp

/-! ### Encode/decode composition -/

theorem encode_decode_of_follows (root : PyTree) (cb : Nat → Option (List Bool)) :
    ∀ text : List Nat, (∀ c ∈ text, ∃ p, cb c = some p ∧ followsTo root p c = true) →
    ∃ bits, encode text cb = some bits ∧ decode bits root = some text := by
  intro text
  induction text with
  | nil => exact fun _ => ⟨[], by simp [encode], by simp [decode, decodeAux]⟩
  | cons c cs ih =>
    intro h
    obtain ⟨p, hp, hf⟩ := h c (List.mem_cons_self _ _)
    obtain ⟨bits, he, hd⟩ := ih (fun c' hc' => h c' (List.mem_cons_of_mem _ hc'))
    refine ⟨p ++ bits, ?_, ?_⟩
    · rw [encode, hp, he]
      rfl
    · rw [decode] at hd
      rw [decode, decodeAux_followsTo root c p root hf bits, hd]
      rfl

theorem lookup_isSome_mem : ∀ (d : List (Nat × Nat)) (c : Nat),
    (d.lookup c).isSome → c ∈ d.map Prod.fst := by
  intro d
  induction d with
  | nil => intro c h; simp [List.lookup] at h
  | cons kv rest ih =>
    intro c h
    rw [List.lookup] at h
    by_cases hc : c = kv.1
    · simp [hc]
    · have hbeq : (c == kv.1) = false := by
        simp [hc]
      rw [hbeq] at h
      simp only [List.map_cons, List.mem_cons]
      exact Or.inr (ih c h)

theorem bump_keys_sub (d : List (Nat × Nat)) (x c : Nat)
    (h : c ∈ d.map Prod.fst) : c ∈ (bump d x).map Prod.fst := by
  unfold bump
  split
  · have hmap : (d.map (fun kv => if kv.1 = x then (kv.1, kv.2 + 1) else kv)).map Prod.fst
        = d.map Prod.fst := by
      rw [List.map_map]
      refine List.map_congr_left ?_
      intro kv _
      by_cases hkv : kv.1 = x <;> simp [hkv]
    rw [hmap]
    exact h
  · simp only [List.map_append, List.mem_append]
    exact Or.inl h

theorem bump_keys_self (d : List (Nat × Nat)) (x : Nat) :
    x ∈ (bump d x).map Prod.fst := by
  unfold bump
  split
  · rename_i hs
    have hmap : (d.map (fun kv => if kv.1 = x then (kv.1, kv.2 + 1) else kv)).map Prod.fst
        = d.map Prod.fst := by
      rw [List.map_map]
      refine List.map_congr_left ?_
      intro kv _
      by_cases hkv : kv.1 = x <;> simp [hkv]
    rw [hmap]
    exact lookup_isSome_mem d x hs
  · simp

theorem mem_bft_keys (text : List Nat) (c : Nat) (h : c ∈ text) :
    c ∈ (build_frequency_table text).map Prod.fst := by
  unfold build_frequency_table
  suffices hgen : ∀ (ts : List Nat) (d : List (Nat × Nat)),
      (c ∈ d.map Prod.fst ∨ c ∈ ts) → c ∈ (ts.foldl bump d).map Prod.fst by
    exact hgen text [] (Or.inr h)
  intro ts
  induction ts with
  | nil =>
    intro d hd
    rcases hd with h1 | h2
    · simpa using h1
    · simp at h2
  | cons x xs ih =>
    intro d hd
    simp only [List.foldl_cons]
    refine ih (bump d x) ?_
    rcases hd with h1 | h2
    · exact Or.inl (bump_keys_sub d x c h1)
    · rcases List.mem_cons.mp h2 with h3 | h4
      · exact Or.inl (h3 ▸ bump_keys_self d x)
      · exact Or.inr h4

/-- For a table with at least two distinct keys, every key has a code in the
generated table and that code drives the decoder from the root to the key's
leaf. -/
theorem bht_code (freq : List (Nat × Nat))
    (h2 : ∃ a b, a ∈ freq.map Prod.fst ∧ b ∈ freq.map Prod.fst ∧ a ≠ b)
    (c : Nat) (hc : c ∈ freq.map Prod.fst) :
    ∃ q, build_codes_iterative (build_huffman_tree freq) c = some q ∧
      followsTo (build_huffman_tree freq) q c = true := by
  have hne : freq ≠ [] := by
    intro hx
    rw [hx] at hc
    simp at hc
  have hstrict := build_huffman_tree_strict freq hne
  have hchars := build_huffman_tree_charsM freq
  have hcm : c ∈ (build_huffman_tree freq).charsM := by
    rw [hchars]
    exact Multiset.mem_coe.mpr hc
  have hcf : c ∈ (codesIn (build_huffman_tree freq) []).map Prod.fst := by
    have := codesIn_fst_charsM (build_huffman_tree freq) hstrict []
    rw [← this] at hcm
    exact Multiset.mem_coe.mp hcm
  obtain ⟨q, hq, hmemq⟩ := applyEntries_mem _ (fun _ => none) c hcf
  refine ⟨q, by rw [build_codes_iterative_eq]; exact hq, ?_⟩
  obtain ⟨a, b, ha, hb, hab⟩ := h2
  cases htree : build_huffman_tree freq with
  | nil =>
    rw [htree] at hstrict
    simp [PyTree.Strict] at hstrict
  | node f c0 l r =>
    cases c0 with
    | some cc =>
      exfalso
      rw [htree] at hstrict hchars
      have hlr : l = .nil ∧ r = .nil := by
        simp [PyTree.Strict] at hstrict
        exact hstrict
      rw [hlr.1, hlr.2] at hchars
      rw [charsM_leaf] at hchars
      have ha' : a ∈ ({cc} : Multiset Nat) := by
        rw [hchars]
        exact Multiset.mem_coe.mpr ha
      have hb' : b ∈ ({cc} : Multiset Nat) := by
        rw [hchars]
        exact Multiset.mem_coe.mpr hb
      rw [Multiset.mem_singleton] at ha' hb'
      exact hab (ha'.trans hb'.symm)
    | none =>
      rw [htree] at hstrict hmemq
      exact codes_root_followsTo f l r hstrict c q hmemq

/-! ### Serialization round trip: abstract view of the deserializer state -/

/-- The bit stream is well delimited: every `'1'` marker is followed by at
least 8 payload bits.  This is exactly the condition under which the
deserializer loop never hits the end of the stream mid-symbol. -/
def wellDelimited : List Bool → Bool
  | [] => true
  | false :: bs => wellDelimited bs
  | true :: bs => decide (8 ≤ bs.length) && wellDelimited (bs.drop 8)
termination_by l => l.length
decreasing_by all_goals simp [List.length_drop] <;> omega

/-- Recursive pre-order serializer: the bit string that `serLoop` emits for
one strict tree. -/
def serR : PyTree → List Bool
  | .nil => []
  | .node _ (some c) _ _ => true :: format08b c
  | .node _ none l r => false :: (serR l ++ serR r)

/-- Number of `Node` objects the deserializer creates for `serR t`. -/
def fsz : PyTree → Nat
  | .nil => 0
  | .node _ (some _) _ _ => 1
  | .node _ none l r => 1 + fsz l + fsz r

/-- The block of object records that deserializing `serR t` appends when the
first created node gets index `base` (valid for strict `t`). -/
def flat : PyTree → Nat → List NodeRec
  | .nil, _ => []
  | .node _ (some c) _ _, _ => [⟨0, some c, none, none⟩]
  | .node _ none l r, base =>
    ⟨0, none, some (base + 1), some (base + 1 + fsz l)⟩ ::
      (flat l (base + 1) ++ flat r (base + 1 + fsz l))

theorem flat_length : ∀ (t : PyTree) (base : Nat), (flat t base).length = fsz t := by
  intro t
  induction t with
  | nil => intro base; rfl
  | node f c l r ihl ihr =>
    intro base
    cases c with
    | some c0 => rfl
    | none => simp [flat, fsz, ihl, ihr]; omega

/-- Net effect on the deserializer state of consuming `serR t` for a strict
`t`: the records of `t` are appended, its root is attached exactly as a
single new node would be, and the stack pops once when it fills a `right`
slot. -/
def dAttach (s : DState) (t : PyTree) : DState :=
  match s.stack with
  | [] => ⟨s.nodes ++ flat t s.nodes.length, [], some s.nodes.length⟩
  | p :: rest =>
    let pr := s.nodes.getD p default
    if pr.left.isNone then
      ⟨(s.nodes.set p { pr with left := some s.nodes.length }) ++
        flat t s.nodes.length, p :: rest, s.root⟩
    else if pr.right.isNone then
      ⟨(s.nodes.set p { pr with right := some s.nodes.length }) ++
        flat t s.nodes.length, rest, s.root⟩
    else ⟨s.nodes ++ flat t s.nodes.length, p :: rest, s.root⟩

/-- A `freq`-erasing copy of a tree: the deserializer recreates every node with
`freq = 0`. -/
def strip : PyTree → PyTree
  | .nil => .nil
  | .node _ c l r => .node 0 c (strip l) (strip r)

theorem getD_append_left (l₁ l₂ : List α) (i : Nat) (d : α) (h : i < l₁.length) :
    (l₁ ++ l₂).getD i d = l₁.getD i d := by
  induction l₁ generalizing i with
  | nil => simp at h
  | cons a t ih =>
    cases i with
    | zero => rfl
    | succ k => exact ih k (by simpa using h)

theorem getD_append_len (l₁ l₂ : List α) (x d : α) :
    (l₁ ++ x :: l₂).getD l₁.length d = x := by
  induction l₁ with
  | nil => rfl
  | cons a t ih => simpa using ih

theorem set_append_left (l₁ l₂ : List α) (i : Nat) (x : α) (h : i < l₁.length) :
    (l₁ ++ l₂).set i x = l₁.set i x ++ l₂ := by
  induction l₁ generalizing i with
  | nil => simp at h
  | cons a t ih =>
    cases i with
    | zero => rfl
    | succ k =>
      have := ih k (by simpa using h)
      simp only [List.cons_append, List.set]
      rw [show t.append l₂ = t ++ l₂ from rfl, this]

theorem dAttach_stack_nil (N : List NodeRec) (ρ : Option Nat) (t : PyTree) :
    dAttach ⟨N, [], ρ⟩ t = ⟨N ++ flat t N.length, [], some N.length⟩ := rfl

theorem dAttach_left (N : List NodeRec) (σ : List Nat) (ρ : Option Nat)
    (t : PyTree) (p : Nat) (h : (N.getD p default).left = none) :
    dAttach ⟨N, p :: σ, ρ⟩ t
      = ⟨N.set p { N.getD p default with left := some N.length } ++
          flat t N.length, p :: σ, ρ⟩ := by
  simp only [dAttach]
  split_ifs with h1 h2
  · rfl
  · exact absurd (by rw [h]; rfl) h1
  · exact absurd (by rw [h]; rfl) h1

theorem dAttach_right (N : List NodeRec) (σ : List Nat) (ρ : Option Nat)
    (t : PyTree) (p : Nat) (a : Nat) (hl : (N.getD p default).left = some a)
    (hr : (N.getD p default).right = none) :
    dAttach ⟨N, p :: σ, ρ⟩ t
      = ⟨N.set p { N.getD p default with right := some N.length } ++
          flat t N.length, σ, ρ⟩ := by
  simp only [dAttach]
  split_ifs with h1 h2
  · rw [hl] at h1; simp at h1
  · rfl
  · exact absurd (by rw [hr]; rfl) h2

theorem dAttach_full (N : List NodeRec) (σ : List Nat) (ρ : Option Nat)
    (t : PyTree) (p : Nat) (a b : Nat) (hl : (N.getD p default).left = some a)
    (hr : (N.getD p default).right = some b) :
    dAttach ⟨N, p :: σ, ρ⟩ t = ⟨N ++ flat t N.length, p :: σ, ρ⟩ := by
  simp only [dAttach]
  split_ifs with h1 h2
  · rw [hl] at h1; simp at h1
  · rw [hr] at h2; simp at h2
  · rfl

theorem dAttach_two (M : List NodeRec) (σ : List Nat) (ρ : Option Nat)
    (f : Nat) (l r : PyTree) :
    dAttach (dAttach ⟨M ++ [⟨0, none, none, none⟩], M.length :: σ, ρ⟩ l) r
      = ⟨M ++ flat (.node f none l r) M.length, σ, ρ⟩ := by
  have h0 : ((M ++ [(⟨0, none, none, none⟩ : NodeRec)]).getD M.length default)
      = ⟨0, none, none, none⟩ := getD_append_len M [] _ default
  have hlen1 : (M ++ [(⟨0, none, none, none⟩ : NodeRec)]).length = M.length + 1 := by
    simp
  rw [dAttach_left _ _ _ _ _ (by rw [h0])]
  rw [h0, hlen1, set_append_end]
  have h1 : (((M ++ [(⟨0, none, some (M.length + 1), none⟩ : NodeRec)]) ++
      flat l (M.length + 1)).getD M.length default)
      = ⟨0, none, some (M.length + 1), none⟩ := by
    rw [getD_append_left _ _ _ _ (by simp), getD_append_len M [] _ default]
  have hlen2 : ((M ++ [(⟨0, none, some (M.length + 1), none⟩ : NodeRec)]) ++
      flat l (M.length + 1)).length = M.length + 1 + fsz l := by
    simp [flat_length]
    omega
  rw [dAttach_right _ _ _ _ _ (M.length + 1) (by rw [h1]) (by rw [h1])]
  rw [h1, hlen2]
  rw [set_append_left _ _ _ _ (by simp)]
  rw [set_append_end]
  simp only [flat, List.append_assoc, List.cons_append, List.nil_append]

theorem dstep1_eq_dAttach (s : DState) (f c : Nat) :
    dstep1 s c = dAttach s (.node f (some c) .nil .nil) := by
  rcases s with ⟨N, stack, ρ⟩
  cases stack with
  | nil => rfl
  | cons p rest =>
    simp only [dstep1, attach, dAttach, flat]

theorem dstep0_stack (s : DState) :
    ∃ M σ ρ2, dstep0 s = ⟨M ++ [⟨0, none, none, none⟩], s.nodes.length :: σ, ρ2⟩
      ∧ M.length = s.nodes.length ∧
      ∀ f : Nat, ∀ l r : PyTree,
        dAttach s (.node f none l r)
          = ⟨M ++ flat (.node f none l r) s.nodes.length, σ, ρ2⟩ := by
  rcases s with ⟨N, stack, ρ⟩
  cases stack with
  | nil =>
    exact ⟨N, [], some N.length, rfl, rfl, fun f l r => rfl⟩
  | cons p rest =>
    by_cases hl : (N.getD p default).left = none
    · refine ⟨N.set p { N.getD p default with left := some N.length }, p :: rest, ρ,
        ?_, by simp, ?_⟩
      · simp only [dstep0, attach]
        split_ifs with h1 h2
        · rfl
        · exact absurd (by rw [hl]; rfl) h1
        · exact absurd (by rw [hl]; rfl) h1
      · intro f l r
        rw [dAttach_left _ _ _ _ _ hl]
    · obtain ⟨a, ha⟩ : ∃ a, (N.getD p default).left = some a := by
        cases hx : (N.getD p default).left
        · exact absurd hx hl
        · exact ⟨_, rfl⟩
      by_cases hr : (N.getD p default).right = none
      · refine ⟨N.set p { N.getD p default with right := some N.length }, rest, ρ,
          ?_, by simp, ?_⟩
        · simp only [dstep0, attach]
          split_ifs with h1 h2
          · rw [ha] at h1; simp at h1
          · rfl
          · exact absurd (by rw [hr]; rfl) h2
        · intro f l r
          rw [dAttach_right _ _ _ _ _ a ha hr]
      · obtain ⟨b, hb⟩ : ∃ b, (N.getD p default).right = some b := by
          cases hx : (N.getD p default).right
          · exact absurd hx hr
          · exact ⟨_, rfl⟩
        refine ⟨N, p :: rest, ρ, ?_, rfl, ?_⟩
        · simp only [dstep0, attach]
          split_ifs with h1 h2
          · rw [ha] at h1; simp at h1
          · rw [hb] at h2; simp at h2
          · rfl
        · intro f l r
          rw [dAttach_full _ _ _ _ _ a b ha hb]

theorem dAttach_dstep0 (s : DState) (f : Nat) (l r : PyTree) :
    dAttach (dAttach (dstep0 s) l) r = dAttach s (.node f none l r) := by
  obtain ⟨M, σ, ρ2, heq, hMlen, hrhs⟩ := dstep0_stack s
  rw [heq, ← hMlen, dAttach_two M σ ρ2 f l r, hMlen, hrhs f l r]

theorem mem_charsM_left (f : Nat) (l r : PyTree) (c : Nat) (h : c ∈ l.charsM) :
    c ∈ (PyTree.node f none l r).charsM := by
  simp [PyTree.charsM]
  exact Or.inl h

theorem mem_charsM_right (f : Nat) (l r : PyTree) (c : Nat) (h : c ∈ r.charsM) :
    c ∈ (PyTree.node f none l r).charsM := by
  simp [PyTree.charsM]
  exact Or.inr h

theorem drun_serR : ∀ (t : PyTree), t.Strict = true → (∀ c ∈ t.charsM, c < 256) →
    ∀ (more : List Bool) (s : DState), drun (serR t ++ more) s = drun more (dAttach s t) := by
  intro t
  induction t with
  | nil => intro hs; simp [PyTree.Strict] at hs
  | node f c l r ihl ihr =>
    intro hs hc more s
    cases c with
    | some c0 =>
      have hlr : l = .nil ∧ r = .nil := by
        simp [PyTree.Strict] at hs
        exact hs
      have hc0 : c0 < 256 := hc c0 (by simp [PyTree.charsM])
      have hfl : (format08b c0).length = 8 := length_format08b c0 hc0
      simp only [serR, List.cons_append]
      rw [drun]
      rw [if_pos (by simp [hfl])]
      rw [List.take_left' hfl, List.drop_left' hfl, bitsToNat_format08b c0 hc0]
      rw [dstep1_eq_dAttach s f c0, hlr.1, hlr.2]
      rw [if_pos (by simp [hfl])]
    | none =>
      have hsl : l.Strict = true := by
        simp [PyTree.Strict] at hs; exact hs.1
      have hsr : r.Strict = true := by
        simp [PyTree.Strict] at hs; exact hs.2
      simp only [serR, List.cons_append, List.append_assoc]
      rw [drun]
      rw [ihl hsl (fun c hcm => hc c (mem_charsM_left f l r c hcm)) _ (dstep0 s)]
      rw [ihr hsr (fun c hcm => hc c (mem_charsM_right f l r c hcm)) more _]
      rw [dAttach_dstep0 s f l r]
      simp

theorem serLoop_eq (n : Nat) : ∀ (stack : List PyTree), (stack.map PyTree.size).sum = n →
    (∀ t ∈ stack, t ≠ .nil) → serLoop stack = some (stack.flatMap serR) := by
  induction n using Nat.strong_induction_on with
  | _ n ih =>
    intro stack hn hne
    match stack with
    | [] => simp [serLoop]
    | .nil :: rest => exact absurd rfl (hne .nil (List.mem_cons_self _ _))
    | .node f (some c) l r :: rest =>
      simp only [serLoop]
      rw [ih ((rest.map PyTree.size).sum) (by simp [PyTree.size] at hn ⊢; omega) rest rfl
        (fun t ht => hne t (List.mem_cons_of_mem _ ht))]
      simp [serR]
    | .node f none l r :: rest =>
      simp only [serLoop]
      have hm : (((if l = .nil then [] else [l]) ++ (if r = .nil then [] else [r]) ++
          rest).map PyTree.size).sum < n := by
        rw [← hn]
        split <;> split <;> simp [PyTree.size] <;> omega
      have hne' : ∀ t ∈ (if l = .nil then [] else [l]) ++ (if r = .nil then [] else [r]) ++
          rest, t ≠ .nil := by
        intro t ht
        simp only [List.mem_append] at ht
        rcases ht with (h1 | h2) | h3
        · split at h1
          · simp at h1
          · rename_i hx
            simp at h1
            rw [h1]
            exact hx
        · split at h2
          · simp at h2
          · rename_i hx
            simp at h2
            rw [h2]
            exact hx
        · exact hne t (List.mem_cons_of_mem _ h3)
      rw [ih _ hm _ rfl hne']
      have hflat : ((if l = .nil then [] else [l]) ++ (if r = .nil then [] else [r]) ++
          rest).flatMap serR = serR l ++ serR r ++ rest.flatMap serR := by
        by_cases hl : l = .nil <;> by_cases hr : r = .nil <;>
          simp [hl, hr, serR]
      rw [hflat]
      simp [serR, List.append_assoc]

theorem serialize_strict (root : PyTree) (hne : root ≠ .nil) :
    serialize_tree_iterative root = some (bit_string_to_bytes (serR root)) := by
  rw [serialize_tree_iterative]
  rw [serLoop_eq (([root].map PyTree.size).sum) [root] rfl (by simpa using hne)]
  simp

theorem readTree_flat : ∀ (t : PyTree), t.Strict = true →
    ∀ (pre post : List NodeRec) (fuel : Nat), fsz t ≤ fuel →
    readTree (pre ++ (flat t pre.length ++ post)) fuel (some pre.length) = strip t := by
  intro t
  induction t with
  | nil => intro hs; simp [PyTree.Strict] at hs
  | node f c l r ihl ihr =>
    intro hs pre post fuel hf
    cases c with
    | some c0 =>
      have hlr : l = .nil ∧ r = .nil := by
        simp [PyTree.Strict] at hs
        exact hs
      have hfuel : ¬ fuel = 0 := by
        simp [fsz] at hf
        omega
      simp only [flat, List.singleton_append, readTree]
      rw [if_neg hfuel]
      rw [getD_append_len pre post _ default]
      simp only [readTree]
      rw [hlr.1, hlr.2]
      rfl
    | none =>
      have hsl : l.Strict = true := by
        simp [PyTree.Strict] at hs; exact hs.1
      have hsr : r.Strict = true := by
        simp [PyTree.Strict] at hs; exact hs.2
      have hfsz : fsz (.node f none l r) = 1 + fsz l + fsz r := rfl
      have hfuel : ¬ fuel = 0 := by omega
      have hcons : flat (.node f none l r) pre.length ++ post
          = (⟨0, none, some (pre.length + 1), some (pre.length + 1 + fsz l)⟩ : NodeRec) ::
            ((flat l (pre.length + 1) ++ flat r (pre.length + 1 + fsz l)) ++ post) := by
        simp [flat]
      rw [hcons]
      simp only [readTree]
      rw [if_neg hfuel]
      rw [getD_append_len pre _ _ default]
      have hN : pre ++ (⟨0, none, some (pre.length + 1), some (pre.length + 1 + fsz l)⟩ :
          NodeRec) :: ((flat l (pre.length + 1) ++ flat r (pre.length + 1 + fsz l)) ++ post)
          = (pre ++ [⟨0, none, some (pre.length + 1), some (pre.length + 1 + fsz l)⟩]) ++
            (flat l (pre.length + 1) ++ (flat r (pre.length + 1 + fsz l) ++ post)) := by
        simp
      have hlen1 : (pre ++ [(⟨0, none, some (pre.length + 1),
          some (pre.length + 1 + fsz l)⟩ : NodeRec)]).length = pre.length + 1 := by
        simp
      have il := ihl hsl (pre ++ [⟨0, none, some (pre.length + 1),
        some (pre.length + 1 + fsz l)⟩]) (flat r (pre.length + 1 + fsz l) ++ post)
        (fuel - 1) (by omega)
      rw [hlen1] at il
      have hN2 : pre ++ (⟨0, none, some (pre.length + 1), some (pre.length + 1 + fsz l)⟩ :
          NodeRec) :: ((flat l (pre.length + 1) ++ flat r (pre.length + 1 + fsz l)) ++ post)
          = ((pre ++ [⟨0, none, some (pre.length + 1), some (pre.length + 1 + fsz l)⟩]) ++
            flat l (pre.length + 1)) ++ (flat r (pre.length + 1 + fsz l) ++ post) := by
        simp
      have hlen2 : ((pre ++ [(⟨0, none, some (pre.length + 1),
          some (pre.length + 1 + fsz l)⟩ : NodeRec)]) ++ flat l (pre.length + 1)).length
          = pre.length + 1 + fsz l := by
        simp [flat_length]
        omega
      have ir := ihr hsr ((pre ++ [⟨0, none, some (pre.length + 1),
        some (pre.length + 1 + fsz l)⟩]) ++ flat l (pre.length + 1))
        post (fuel - 1) (by omega)
      rw [hlen2] at ir
      have e1 : readTree (pre ++ (⟨0, none, some (pre.length + 1),
          some (pre.length + 1 + fsz l)⟩ : NodeRec) ::
            ((flat l (pre.length + 1) ++ flat r (pre.length + 1 + fsz l)) ++ post))
          (fuel - 1) (some (pre.length + 1)) = strip l := by
        rw [hN]
        exact il
      have e2 : readTree (pre ++ (⟨0, none, some (pre.length + 1),
          some (pre.length + 1 + fsz l)⟩ : NodeRec) ::
            ((flat l (pre.length + 1) ++ flat r (pre.length + 1 + fsz l)) ++ post))
          (fuel - 1) (some (pre.length + 1 + fsz l)) = strip r := by
        rw [hN2]
        exact ir
      rw [e1, e2]
      rfl

theorem strict_ne_nil (t : PyTree) (h : t.Strict = true) : t ≠ .nil := by
  intro hx
  rw [hx] at h
  simp [PyTree.Strict] at h

/-- Serializing a strict tree with single-byte symbols and deserializing the
result reconstructs the same tree with all `freq` fields zeroed. -/
theorem deserialize_serialize (t : PyTree) (hs : t.Strict = true)
    (hc : ∀ c ∈ t.charsM, c < 256) :
    ∃ bytes, serialize_tree_iterative t = some bytes ∧
      deserialize_tree_iterative bytes = some (strip t) := by
  have hne := strict_ne_nil t hs
  refine ⟨bit_string_to_bytes (serR t), serialize_strict t hne, ?_⟩
  rw [deserialize_tree_iterative, pack_unpack]
  simp only [Option.some_bind]
  have hrun : drun (serR t) ⟨[], [], none⟩ = some ⟨flat t 0, [], some 0⟩ := by
    have := drun_serR t hs hc [] ⟨[], [], none⟩
    rw [List.append_nil] at this
    rw [this, dAttach_stack_nil]
    simp [drun]
  rw [hrun]
  have hread : readTree (flat t 0) (flat t 0).length (some 0) = strip t := by
    have := readTree_flat t hs [] [] (flat t 0).length (by rw [flat_length])
    simpa using this
  simp only [Option.map_some']
  rw [hread]

theorem codesIn_strip : ∀ (t : PyTree) (p : List Bool),
    codesIn (strip t) p = codesIn t p := by
  intro t
  induction t with
  | nil => intro p; rfl
  | node f c l r ihl ihr =>
    intro p
    cases c with
    | some c0 => rfl
    | none => simp [strip, codesIn, ihl, ihr]

theorem build_codes_strip (t : PyTree) :
    build_codes_iterative (strip t) = build_codes_iterative t := by
  rw [build_codes_iterative_eq, build_codes_iterative_eq, codesIn_strip]

/-! ### Deserializer failure characterization -/

theorem drun_none_iff : ∀ (n : Nat) (bits : List Bool), bits.length = n →
    ∀ s, (drun bits s = none ↔ wellDelimited bits = false) := by
  intro n
  induction n using Nat.strong_induction_on with
  | _ n ih =>
    intro bits hn s
    match bits with
    | [] => simp [drun, wellDelimited]
    | false :: bs =>
      rw [drun, wellDelimited]
      simp only [Bool.false_eq_true, if_neg]
      exact ih bs.length (by simp [← hn]) bs rfl (dstep0 s)
    | true :: bs =>
      rw [drun, wellDelimited]
      by_cases h8 : 8 ≤ bs.length
      · rw [if_pos rfl, if_pos h8]
        have := ih (bs.drop 8).length (by simp [← hn, List.length_drop]; omega)
          (bs.drop 8) rfl (dstep1 s (bitsToNat (bs.take 8)))
        rw [this]
        simp [h8]
      · rw [if_pos rfl, if_neg h8]
        simp [h8]


/-! ### Concrete evaluations used by the claim witnesses -/

theorem eval_bft_a : build_frequency_table [97] = [(97, 1)] := by
  simp [build_frequency_table, bump, List.lookup]

theorem eval_bft_aaaa : build_frequency_table [97, 97, 97, 97] = [(97, 4)] := by
  simp [build_frequency_table, bump, List.lookup]

theorem eval_push_a : heappush [] (.node 1 (some 97) .nil .nil)
    = [PyTree.node 1 (some 97) .nil .nil] := by
  simp [heappush, siftdown, PyTree.freq]

theorem eval_push_b : heappush [PyTree.node 1 (some 97) .nil .nil]
    (.node 1 (some 98) .nil .nil)
    = [PyTree.node 1 (some 97) .nil .nil, PyTree.node 1 (some 98) .nil .nil] := by
  simp [heappush, siftdown, PyTree.freq]

theorem eval_push_c : heappush
    [PyTree.node 1 (some 97) .nil .nil, PyTree.node 1 (some 98) .nil .nil]
    (.node 1 (some 99) .nil .nil)
    = [PyTree.node 1 (some 97) .nil .nil, PyTree.node 1 (some 98) .nil .nil,
      PyTree.node 1 (some 99) .nil .nil] := by
  simp [heappush, siftdown, PyTree.freq]

theorem eval_push_d : heappush
    [PyTree.node 1 (some 97) .nil .nil, PyTree.node 1 (some 98) .nil .nil,
      PyTree.node 1 (some 99) .nil .nil]
    (.node 1 (some 100) .nil .nil)
    = [PyTree.node 1 (some 97) .nil .nil, PyTree.node 1 (some 98) .nil .nil,
      PyTree.node 1 (some 99) .nil .nil, PyTree.node 1 (some 100) .nil .nil] := by
  simp [heappush, siftdown, PyTree.freq]

theorem eval_pop4 : heappop
    [PyTree.node 1 (some 97) .nil .nil, PyTree.node 1 (some 98) .nil .nil,
      PyTree.node 1 (some 99) .nil .nil, PyTree.node 1 (some 100) .nil .nil]
    = (PyTree.node 1 (some 97) .nil .nil,
      [PyTree.node 1 (some 99) .nil .nil, PyTree.node 1 (some 98) .nil .nil,
        PyTree.node 1 (some 100) .nil .nil]) := by
  simp [heappop, siftup, siftupLoop, childIdx, siftdown, PyTree.freq]

theorem eval_pop3 : heappop
    [PyTree.node 1 (some 99) .nil .nil, PyTree.node 1 (some 98) .nil .nil,
      PyTree.node 1 (some 100) .nil .nil]
    = (PyTree.node 1 (some 99) .nil .nil,
      [PyTree.node 1 (some 98) .nil .nil, PyTree.node 1 (some 100) .nil .nil]) := by
  simp [heappop, siftup, siftupLoop, childIdx, siftdown, PyTree.freq]

theorem eval_push_m1 : heappush
    [PyTree.node 1 (some 98) .nil .nil, PyTree.node 1 (some 100) .nil .nil]
    (.node 2 none (.node 1 (some 97) .nil .nil) (.node 1 (some 99) .nil .nil))
    = [PyTree.node 1 (some 98) .nil .nil, PyTree.node 1 (some 100) .nil .nil,
      PyTree.node 2 none (.node 1 (some 97) .nil .nil) (.node 1 (some 99) .nil .nil)] := by
  simp [heappush, siftdown, PyTree.freq]

theorem eval_pop_bdm : heappop
    [PyTree.node 1 (some 98) .nil .nil, PyTree.node 1 (some 100) .nil .nil,
      PyTree.node 2 none (.node 1 (some 97) .nil .nil) (.node 1 (some 99) .nil .nil)]
    = (PyTree.node 1 (some 98) .nil .nil,
      [PyTree.node 1 (some 100) .nil .nil,
        PyTree.node 2 none (.node 1 (some 97) .nil .nil) (.node 1 (some 99) .nil .nil)]) := by
  simp [heappop, siftup, siftupLoop, childIdx, siftdown, PyTree.freq]

theorem eval_pop_dm : heappop
    [PyTree.node 1 (some 100) .nil .nil,
      PyTree.node 2 none (.node 1 (some 97) .nil .nil) (.node 1 (some 99) .nil .nil)]
    = (PyTree.node 1 (some 100) .nil .nil,
      [PyTree.node 2 none (.node 1 (some 97) .nil .nil) (.node 1 (some 99) .nil .nil)]) := by
  simp [heappop, siftup, siftupLoop, childIdx, siftdown, PyTree.freq]

theorem eval_push_m2 : heappush
    [PyTree.node 2 none (.node 1 (some 97) .nil .nil) (.node 1 (some 99) .nil .nil)]
    (.node 2 none (.node 1 (some 98) .nil .nil) (.node 1 (some 100) .nil .nil))
    = [PyTree.node 2 none (.node 1 (some 97) .nil .nil) (.node 1 (some 99) .nil .nil),
      PyTree.node 2 none (.node 1 (some 98) .nil .nil) (.node 1 (some 100) .nil .nil)] := by
  simp [heappush, siftdown, PyTree.freq]

theorem eval_pop_m1m2 : heappop
    [PyTree.node 2 none (.node 1 (some 97) .nil .nil) (.node 1 (some 99) .nil .nil),
      PyTree.node 2 none (.node 1 (some 98) .nil .nil) (.node 1 (some 100) .nil .nil)]
    = (PyTree.node 2 none (.node 1 (some 97) .nil .nil) (.node 1 (some 99) .nil .nil),
      [PyTree.node 2 none (.node 1 (some 98) .nil .nil) (.node 1 (some 100) .nil .nil)]) := by
  simp [heappop, siftup, siftupLoop, childIdx, siftdown, PyTree.freq]

theorem eval_pop_m2 : heappop
    [PyTree.node 2 none (.node 1 (some 98) .nil .nil) (.node 1 (some 100) .nil .nil)]
    = (PyTree.node 2 none (.node 1 (some 98) .nil .nil) (.node 1 (some 100) .nil .nil),
      []) := by
  simp [heappop, siftup, siftupLoop, childIdx, siftdown, PyTree.freq]

theorem eval_push_m3 : heappush []
    (.node 4 none
      (.node 2 none (.node 1 (some 97) .nil .nil) (.node 1 (some 99) .nil .nil))
      (.node 2 none (.node 1 (some 98) .nil .nil) (.node 1 (some 100) .nil .nil)))
    = [PyTree.node 4 none
        (.node 2 none (.node 1 (some 97) .nil .nil) (.node 1 (some 99) .nil .nil))
        (.node 2 none (.node 1 (some 98) .nil .nil) (.node 1 (some 100) .nil .nil))] := by
  simp [heappush, siftdown, PyTree.freq]

theorem eval_bht_a1 : build_huffman_tree [(97, 1)] = .node 1 (some 97) .nil .nil := by
  unfold build_huffman_tree bhtHeap
  simp only [List.foldl]
  rw [eval_push_a]
  norm_num
  rw [buildLoop.eq_def]
  norm_num

theorem eval_bht_a4 : build_huffman_tree [(97, 4)] = .node 4 (some 97) .nil .nil := by
  unfold build_huffman_tree bhtHeap
  simp only [List.foldl]
  rw [heappush, siftdown]
  norm_num
  rw [buildLoop.eq_def]
  norm_num

theorem eval_pop_ab : heappop
    [PyTree.node 1 (some 97) .nil .nil, PyTree.node 1 (some 98) .nil .nil]
    = (PyTree.node 1 (some 97) .nil .nil, [PyTree.node 1 (some 98) .nil .nil]) := by
  simp [heappop, siftup, siftupLoop, childIdx, siftdown, PyTree.freq]

theorem eval_pop_b : heappop [PyTree.node 1 (some 98) .nil .nil]
    = (PyTree.node 1 (some 98) .nil .nil, []) := by
  simp [heappop]

theorem eval_push_mab : heappush []
    (.node 2 none (.node 1 (some 97) .nil .nil) (.node 1 (some 98) .nil .nil))
    = [PyTree.node 2 none (.node 1 (some 97) .nil .nil) (.node 1 (some 98) .nil .nil)] := by
  simp [heappush, siftdown, PyTree.freq]

theorem eval_bht2 : build_huffman_tree [(97, 1), (98, 1)]
    = .node 2 none (.node 1 (some 97) .nil .nil) (.node 1 (some 98) .nil .nil) := by
  unfold build_huffman_tree bhtHeap
  simp only [List.foldl]
  rw [eval_push_a, eval_push_b]
  norm_num
  rw [buildLoop.eq_def]
  norm_num [eval_pop_ab, eval_pop_b, PyTree.freq, eval_push_mab]
  rw [buildLoop.eq_def]
  norm_num

theorem eval_bht4 : build_huffman_tree [(97, 1), (98, 1), (99, 1), (100, 1)]
    = .node 4 none
        (.node 2 none (.node 1 (some 97) .nil .nil) (.node 1 (some 99) .nil .nil))
        (.node 2 none (.node 1 (some 98) .nil .nil) (.node 1 (some 100) .nil .nil)) := by
  unfold build_huffman_tree bhtHeap
  simp only [List.foldl]
  rw [eval_push_a, eval_push_b, eval_push_c, eval_push_d]
  norm_num
  rw [buildLoop.eq_def]
  norm_num [eval_pop4, eval_pop3, PyTree.freq, eval_push_m1]
  rw [buildLoop.eq_def]
  norm_num [eval_pop_bdm, eval_pop_dm, PyTree.freq, eval_push_m2]
  rw [buildLoop.eq_def]
  norm_num [eval_pop_m1m2, eval_pop_m2, PyTree.freq, eval_push_m3]
  rw [buildLoop.eq_def]
  norm_num

theorem eval_codes_a1 :
    build_codes_iterative (.node 1 (some 97) .nil .nil) 97 = some [false] := by
  simp [build_codes_iterative, buildCodesLoop, dictSet]

theorem eval_codes_a4 :
    build_codes_iterative (.node 4 (some 97) .nil .nil) 97 = some [false] := by
  simp [build_codes_iterative, buildCodesLoop, dictSet]

theorem eval_codes2_97 :
    build_codes_iterative
      (.node 2 none (.node 1 (some 97) .nil .nil) (.node 1 (some 98) .nil .nil)) 97
      = some [false] := by
  simp [build_codes_iterative, buildCodesLoop, dictSet]

theorem eval_codes2_98 :
    build_codes_iterative
      (.node 2 none (.node 1 (some 97) .nil .nil) (.node 1 (some 98) .nil .nil)) 98
      = some [true] := by
  simp [build_codes_iterative, buildCodesLoop, dictSet]

/-! ## The claims -/

/-- C1 (code bug): the spec's round-trip law `decode(encode(T)) = T` is the
clear intent (the code-assignment even special-cases the single-symbol tree,
`src/Main.py:44`), but the decoder crashes on single-distinct-symbol texts.
For T = "a": the pipeline encodes T to the bit string "0" and packing/
unpacking preserves it, but `decode` steps from the leaf root into its `None`
left child and raises `AttributeError` (`src/Main.py:59-60`), modelled as a
`none` result, instead of returning "a". -/
theorem claim_C1_roundtrip_single_symbol_crash :
    encode [97] (build_codes_iterative (build_huffman_tree (build_frequency_table [97])))
      = some [false]
    ∧ bytes_to_bit_string (bit_string_to_bytes [false]) = some [false]
    ∧ decode [false] (build_huffman_tree (build_frequency_table [97])) = none := by
  rw [eval_bft_a, eval_bht_a1]
  refine ⟨?_, pack_unpack [false], ?_⟩
  · simp [encode, eval_codes_a1]
  · simp [decode, decodeAux]

/-- C2 (code bug): for T = "aaaa" the tree is the single leaf `Node(4, 'a')`,
its code is "0" and encoding produces "0000" — but decoding "0000" against
that tree does not return "aaaa": the first bit steps into the leaf's `None`
left child and `node.char` raises `AttributeError` (`src/Main.py:59-60`),
modelled as `none`. -/
theorem claim_C2_single_symbol_case :
    build_huffman_tree (build_frequency_table [97, 97, 97, 97])
      = .node 4 (some 97) .nil .nil
    ∧ build_codes_iterative (.node 4 (some 97) .nil .nil) 97 = some [false]
    ∧ encode [97, 97, 97, 97] (build_codes_iterative (.node 4 (some 97) .nil .nil))
        = some [false, false, false, false]
    ∧ decode [false, false, false, false]
        (build_huffman_tree (build_frequency_table [97, 97, 97, 97])) = none := by
  refine ⟨by rw [eval_bft_aaaa, eval_bht_a4], eval_codes_a4, ?_, ?_⟩
  · simp [encode, eval_codes_a4]
  · rw [eval_bft_aaaa, eval_bht_a4]
    simp [decode, decodeAux]

/-- C3 (confirmed): for every bit string `s`, unpacking the packed bytes gives
back exactly `s`; the leading byte is the padding count (the number of zero
bits appended, which completes the length to a multiple of 8 and is at most
7); and the output is never empty — for `s = []` it is the single byte 0. -/
theorem claim_C3_bitpacker_roundtrip (s : List Bool) :
    bytes_to_bit_string (bit_string_to_bytes s) = some s
    ∧ (∃ rest, bit_string_to_bytes s = ((8 - s.length % 8) % 8) :: rest
        ∧ (8 - s.length % 8) % 8 ≤ 7
        ∧ (s.length + (8 - s.length % 8) % 8) % 8 = 0)
    ∧ bit_string_to_bytes s ≠ []
    ∧ bit_string_to_bytes [] = [0] := by
  refine ⟨pack_unpack s,
    ⟨toBytes (s ++ List.replicate ((8 - s.length % 8) % 8) false), rfl, by omega, by omega⟩,
    by simp [bit_string_to_bytes], ?_⟩
  simp [bit_string_to_bytes, toBytes, List.replicate]

/-- C4 (confirmed): for every non-empty frequency table over single-byte
symbols, serializing the Huffman tree and deserializing the result yields a
tree (the same tree with `freq` fields zeroed) that assigns the identical
code to every symbol. -/
theorem claim_C4_tree_codec_roundtrip (freq : List (Nat × Nat)) (hne : freq ≠ [])
    (hkeys : ∀ kv ∈ freq, kv.1 < 256) :
    ∃ bytes tree2,
      serialize_tree_iterative (build_huffman_tree freq) = some bytes
      ∧ deserialize_tree_iterative bytes = some tree2
      ∧ ∀ c, build_codes_iterative tree2 c
          = build_codes_iterative (build_huffman_tree freq) c := by
  have hs := build_huffman_tree_strict freq hne
  have hc : ∀ c ∈ (build_huffman_tree freq).charsM, c < 256 := by
    intro c hcm
    rw [build_huffman_tree_charsM] at hcm
    have hm := Multiset.mem_coe.mp hcm
    simp only [List.mem_map] at hm
    obtain ⟨kv, hkv, hfst⟩ := hm
    rw [← hfst]
    exact hkeys kv hkv
  obtain ⟨bytes, hser, hdes⟩ := deserialize_serialize _ hs hc
  exact ⟨bytes, strip _, hser, hdes, fun c => by rw [build_codes_strip]⟩

/-- Witness for C4 at the concrete table {a: 1, b: 1}. -/
theorem claim_C4_witness :
    (([(97, 1), (98, 1)] : List (Nat × Nat)) ≠ []
      ∧ ∀ kv ∈ ([(97, 1), (98, 1)] : List (Nat × Nat)), kv.1 < 256)
    ∧ ∃ bytes tree2,
      serialize_tree_iterative (build_huffman_tree [(97, 1), (98, 1)]) = some bytes
      ∧ deserialize_tree_iterative bytes = some tree2
      ∧ ∀ c, build_codes_iterative tree2 c
          = build_codes_iterative (build_huffman_tree [(97, 1), (98, 1)]) c :=
  ⟨⟨by simp, by decide⟩, claim_C4_tree_codec_roundtrip [(97, 1), (98, 1)] (by simp) (by decide)⟩

/-- C5 counterexample: the claim says a declared tree length exceeding the
remaining bytes must fail, but `load_encoded_file` never checks this:
`f.read(tree_length)` silently returns the short read.  Header `[0,0,0,5]`
declares a 5-byte tree with 0 bytes remaining, and the reader succeeds with
an empty tree block instead of raising an error. -/
theorem claim_C5_counterexample :
    load_encoded_file [0, 0, 0, 5] = some ([], []) ∧
      load_encoded_file [0, 0, 0, 5] ≠ none := by
  constructor
  · simp [load_encoded_file, be32]
  · simp [load_encoded_file, be32]

/-- C5 (corrected): reading fails exactly when fewer than 4 header bytes are
available; when the declared tree length `L` is at least the number of
remaining bytes, the reader returns all remaining bytes as the (short) tree
block and an empty payload, without any error. -/
theorem claim_C5_amended (data : List Nat) :
    (load_encoded_file data = none ↔ data.length < 4)
    ∧ (4 ≤ data.length → data.length - 4 ≤ be32 (data.take 4) →
        load_encoded_file data = some (data.drop 4, [])) := by
  constructor
  · rw [load_encoded_file]
    split
    · rename_i h
      simp only [List.length_take] at h
      simp
      omega
    · rename_i h
      simp only [List.length_take] at h
      simp
      omega
  · intro h4 hL
    rw [load_encoded_file, if_neg (by simp only [List.length_take]; omega)]
    have hdl : (data.drop 4).length ≤ be32 (data.take 4) := by
      rw [List.length_drop]
      omega
    rw [List.take_of_length_le hdl, List.drop_eq_nil_of_le hdl]

/-- Witness for the amended C5 at the concrete file bytes `[0,0,0,5]`. -/
theorem claim_C5_witness :
    (4 ≤ ([0, 0, 0, 5] : List Nat).length
      ∧ ([0, 0, 0, 5] : List Nat).length - 4 ≤ be32 ([0, 0, 0, 5].take 4))
    ∧ load_encoded_file [0, 0, 0, 5] = some (([0, 0, 0, 5] : List Nat).drop 4, []) :=
  ⟨⟨by decide, by decide⟩, (claim_C5_amended [0, 0, 0, 5]).2 (by decide) (by decide)⟩

/-- C6 counterexample: the claim says `decode` fails with a `DecodingError`
when the bit stream ends while traversal is stopped at an internal node.  On
the four-symbol tree all codes have two bits, so the single bit "0" ends at
an internal node — and `decode` silently returns the empty result instead of
any error. -/
theorem claim_C6_counterexample :
    decode [false] (build_huffman_tree [(97, 1), (98, 1), (99, 1), (100, 1)]) = some []
    ∧ decode [false] (build_huffman_tree [(97, 1), (98, 1), (99, 1), (100, 1)]) ≠ none := by
  rw [eval_bht4]
  constructor
  · simp [decode, decodeAux]
  · simp [decode, decodeAux]

/-- C6 (corrected): when the stream ends at an internal node, `decode`
silently returns the symbols decoded so far — on any strict tree with an
internal root it never fails, for any bit string.  Stepping into a null
child does abort decoding, but with an uncaught `AttributeError` (modelled
`none`), not a `DecodingError`; with trees this program builds that happens
exactly on the single-leaf tree with a non-empty stream. -/
theorem claim_C6_amended :
    (∀ (root : PyTree) (bits : List Bool), root.Strict = true → root.char = none →
      ∃ ds, decode bits root = some ds)
    ∧ ∀ (f c : Nat) (bits : List Bool), bits ≠ [] →
        decode bits (.node f (some c) .nil .nil) = none := by
  constructor
  · intro root bits hs hc
    exact decodeAux_total root hs hc bits root hs hc
  · intro f c bits hb
    cases bits with
    | nil => exact absurd rfl hb
    | cons b bs => cases b <;> simp [decode, decodeAux]

/-- Witness for the amended C6: the two-symbol tree decodes the lone bit "0"
without error, and the single-leaf tree crashes on the lone bit "1". -/
theorem claim_C6_witness :
    ((PyTree.node 2 none (.node 1 (some 97) .nil .nil)
        (.node 1 (some 98) .nil .nil)).Strict = true
      ∧ (PyTree.node 2 none (.node 1 (some 97) .nil .nil)
        (.node 1 (some 98) .nil .nil)).char = none
      ∧ ([true] : List Bool) ≠ [])
    ∧ (∃ ds, decode [false] (PyTree.node 2 none (.node 1 (some 97) .nil .nil)
        (.node 1 (some 98) .nil .nil)) = some ds)
    ∧ decode [true] (.node 5 (some 99) .nil .nil) = none :=
  ⟨⟨by decide, by decide, by simp⟩,
    claim_C6_amended.1 _ [false] (by decide) (by decide),
    claim_C6_amended.2 5 99 [true] (by simp)⟩

/-- C7 (confirmed): deserializing a (non-empty) byte string fails exactly
when the unpacked bit stream ends mid-symbol — some `'1'` leaf marker is
followed by fewer than 8 payload bits (`wellDelimited` is the scan for that
condition).  Under Python 3.7+ the `StopIteration` raised inside the 8-bit
generator expression surfaces as an uncaught `RuntimeError` (PEP 479), so
the condition is reported as an error, never silently truncated. -/
theorem claim_C7_mid_symbol_failure (p : Nat) (rest : List Nat) (bits : List Bool)
    (hbits : bytes_to_bit_string (p :: rest) = some bits) :
    (deserialize_tree_iterative (p :: rest) = none ↔ wellDelimited bits = false) := by
  rw [deserialize_tree_iterative, hbits]
  simp only [Option.some_bind]
  rw [← drun_none_iff bits.length bits rfl ⟨[], [], none⟩]
  cases hdr : drun bits ⟨[], [], none⟩ with
  | none => simp
  | some s => simp

/-- Witness for C7: the bytes `[0, 128]` unpack to the bit string "10000000",
whose `'1'` marker is followed by only 7 bits. -/
theorem claim_C7_witness :
    bytes_to_bit_string [0, 128]
      = some [true, false, false, false, false, false, false, false]
    ∧ (deserialize_tree_iterative [0, 128] = none
        ↔ wellDelimited [true, false, false, false, false, false, false, false] = false) := by
  have hb : bytes_to_bit_string [0, 128]
      = some [true, false, false, false, false, false, false, false] := by
    simp [bytes_to_bit_string, format08b, natToBin, natBinAux, List.replicate]
  exact ⟨hb, claim_C7_mid_symbol_failure 0 [128] _ hb⟩

/-- C8 (confirmed): the code table generated from any non-empty frequency
table is prefix-free — for two distinct symbols with codes, neither code is
a prefix of the other. -/
theorem claim_C8_codes_not_nested (freq : List (Nat × Nat)) (hne : freq ≠ [])
    (a b : Nat) (hab : a ≠ b) (pa pb : List Bool)
    (ha : build_codes_iterative (build_huffman_tree freq) a = some pa)
    (hb : build_codes_iterative (build_huffman_tree freq) b = some pb) :
    ¬ pa <+: pb := by
  have hs := build_huffman_tree_strict freq hne
  rw [build_codes_iterative_eq] at ha hb
  rcases applyEntries_some _ _ _ _ ha with hma | hda
  · rcases applyEntries_some _ _ _ _ hb with hmb | hdb
    · exact codesIn_pairwise _ hs [] (a, pa) (b, pb) hma hmb (by simpa using hab)
    · simp at hdb
  · simp at hda

/-- Witness for C8 at the table {a: 1, b: 1}, whose codes are "0" and "1". -/
theorem claim_C8_witness :
    (([(97, 1), (98, 1)] : List (Nat × Nat)) ≠ [] ∧ (97 : Nat) ≠ 98
      ∧ build_codes_iterative (build_huffman_tree [(97, 1), (98, 1)]) 97 = some [false]
      ∧ build_codes_iterative (build_huffman_tree [(97, 1), (98, 1)]) 98 = some [true])
    ∧ ¬ [false] <+: [true] := by
  have h97 : build_codes_iterative (build_huffman_tree [(97, 1), (98, 1)]) 97
      = some [false] := by
    rw [eval_bht2]
    exact eval_codes2_97
  have h98 : build_codes_iterative (build_huffman_tree [(97, 1), (98, 1)]) 98
      = some [true] := by
    rw [eval_bht2]
    exact eval_codes2_98
  exact ⟨⟨by simp, by decide, h97, h98⟩,
    claim_C8_codes_not_nested [(97, 1), (98, 1)] (by simp) 97 98 (by decide) _ _ h97 h98⟩

/-- C9 (confirmed): the tree built from a non-empty table satisfies the
strict shape invariant (`PyTree.Strict`: symbol nodes are leaves with both
children `None`, symbol-free nodes have two non-`None` children), and the
result is `None` exactly for the empty table. -/
theorem claim_C9_strict_shape (freq : List (Nat × Nat)) :
    (freq ≠ [] → (build_huffman_tree freq).Strict = true)
    ∧ (build_huffman_tree freq = .nil ↔ freq = []) :=
  ⟨fun h => build_huffman_tree_strict freq h, build_huffman_tree_nil_iff freq⟩

/-- Witness for C9 at the concrete table {a: 2}. -/
theorem claim_C9_witness :
    (([(97, 2)] : List (Nat × Nat)) ≠ [])
    ∧ (build_huffman_tree [(97, 2)]).Strict = true
    ∧ (build_huffman_tree [(97, 2)] = .nil ↔ ([(97, 2)] : List (Nat × Nat)) = []) :=
  ⟨by simp, (claim_C9_strict_shape [(97, 2)]).1 (by simp), (claim_C9_strict_shape [(97, 2)]).2⟩

/-- C10 (confirmed): for every text with at least two distinct symbols, the
in-memory pipeline round-trips: encoding with the codebook of the text's own
tree succeeds, packing then unpacking returns the same bit string, and
decoding it against the tree returns the original text. -/
theorem claim_C10_pipeline_roundtrip (text : List Nat)
    (h2 : ∃ a, a ∈ text ∧ ∃ b, b ∈ text ∧ a ≠ b) :
    ∃ bits,
      encode text (build_codes_iterative (build_huffman_tree (build_frequency_table text)))
        = some bits
      ∧ bytes_to_bit_string (bit_string_to_bytes bits) = some bits
      ∧ decode bits (build_huffman_tree (build_frequency_table text)) = some text := by
  obtain ⟨a, ha, b, hb, hab⟩ := h2
  have hkey2 : ∃ a2 b2, a2 ∈ (build_frequency_table text).map Prod.fst
      ∧ b2 ∈ (build_frequency_table text).map Prod.fst ∧ a2 ≠ b2 :=
    ⟨a, b, mem_bft_keys text a ha, mem_bft_keys text b hb, hab⟩
  have hfollow : ∀ c ∈ text, ∃ p,
      build_codes_iterative (build_huffman_tree (build_frequency_table text)) c = some p
      ∧ followsTo (build_huffman_tree (build_frequency_table text)) p c = true :=
    fun c hc => bht_code _ hkey2 c (mem_bft_keys text c hc)
  obtain ⟨bits, he, hd⟩ := encode_decode_of_follows _ _ text hfollow
  exact ⟨bits, he, pack_unpack bits, hd⟩

/-- Witness for C10 at the concrete text "ab". -/
theorem claim_C10_witness :
    (∃ a, a ∈ ([97, 98] : List Nat) ∧ ∃ b, b ∈ ([97, 98] : List Nat) ∧ a ≠ b)
    ∧ ∃ bits,
      encode [97, 98] (build_codes_iterative (build_huffman_tree
        (build_frequency_table [97, 98]))) = some bits
      ∧ bytes_to_bit_string (bit_string_to_bytes bits) = some bits
      ∧ decode bits (build_huffman_tree (build_frequency_table [97, 98])) = some [97, 98] :=
  ⟨⟨97, by simp, 98, by simp, by decide⟩,
    claim_C10_pipeline_roundtrip [97, 98] ⟨97, by simp, 98, by simp, by decide⟩⟩

end HuffmanPy
